import Mathlib

/-!
Verification of the matching-and-staging engine of the Google Takeout Live
Photos helper (`src/google_takeout_live_photos/processor.py`).

The Python code is shallowly embedded: the filesystem walk is a list of
scanned files, the three scan indexes become list filters over that walk,
dictionaries with insertion order become first-occurrence key lists, the
two-pass pairing algorithm becomes folds over those key lists, and the
stager becomes a state-passing recursion whose filesystem is the list of
existing destination paths and whose write effects are recorded explicitly.
Video durations (floats obtained from ffprobe) are modelled as rationals
returned by a probe oracle; OS-level failures of `os.symlink` and
`shutil.copy2` are modelled by a failure oracle.
-/

namespace GTLP

/-- `STILL_EXTENSIONS` from processor.py. -/
def STILL_EXTENSIONS : List String := [".heic", ".jpg", ".jpeg", ".png"]

/-- `VIDEO_EXTENSIONS` from processor.py. -/
def VIDEO_EXTENSIONS : List String := [".mov", ".mp4"]

/-- `ALL_EXTENSIONS = STILL_EXTENSIONS | VIDEO_EXTENSIONS`. -/
def ALL_EXTENSIONS : List String := STILL_EXTENSIONS ++ VIDEO_EXTENSIONS

/-- One file yielded by `os.walk`: the directory (`root`), the stem
(`Path(filename).stem`) and the suffix (`Path(filename).suffix`). -/
structure SrcFile where
  dir : String
  base : String
  ext : String
deriving DecidableEq

/-- `os.path.join(root, filename)` on a POSIX walk. -/
def SrcFile.path (f : SrcFile) : String := f.dir ++ "/" ++ f.base ++ f.ext

/-- The walk filename, stem plus suffix. -/
def SrcFile.filename (f : SrcFile) : String := f.base ++ f.ext

/-- `str.lower()` on an extension: ASCII-lowercase every character (Python's
`.lower()`, restricted to the ASCII extension strings it is applied to).
Defined structurally over the character list so that it evaluates. -/
def lowerStr (s : String) : String := String.mk (s.data.map Char.toLower)

/-- `ext in ALL_EXTENSIONS` after `.lower()`. -/
def IsMedia (f : SrcFile) : Prop := lowerStr f.ext ∈ ALL_EXTENSIONS

/-- `ext in STILL_EXTENSIONS` after `.lower()`. -/
def IsStill (f : SrcFile) : Prop := lowerStr f.ext ∈ STILL_EXTENSIONS

instance (f : SrcFile) : Decidable (IsMedia f) := by unfold IsMedia; infer_instance
instance (f : SrcFile) : Decidable (IsStill f) := by unfold IsStill; infer_instance

/-- The media files seen by `scan_media_files`, in walk order. -/
def mediaFiles (walk : List SrcFile) : List SrcFile :=
  walk.filter fun f => decide (IsMedia f)

/-- The files appended to the still indexes, in walk order. -/
def stillsOf (walk : List SrcFile) : List SrcFile :=
  (mediaFiles walk).filter fun f => decide (IsStill f)

/-- The files appended to the video indexes (the else-branch of the scan loop:
recognized extension that is not a still), in walk order. -/
def videosOf (walk : List SrcFile) : List SrcFile :=
  (mediaFiles walk).filter fun f => decide (¬ IsStill f)

/-- `by_dir_base[(root, base)]["stills"]`: still paths of one directory/basename
group, in insertion order. -/
def groupStills (walk : List SrcFile) (d b : String) : List String :=
  ((stillsOf walk).filter fun f => decide (f.dir = d ∧ f.base = b)).map SrcFile.path

/-- `by_dir_base[(root, base)]["videos"]`. -/
def groupVideos (walk : List SrcFile) (d b : String) : List String :=
  ((videosOf walk).filter fun f => decide (f.dir = d ∧ f.base = b)).map SrcFile.path

/-- `stills_by_base.get(base, [])`: global still index. -/
def stillsByBase (walk : List SrcFile) (b : String) : List String :=
  ((stillsOf walk).filter fun f => decide (f.base = b)).map SrcFile.path

/-- `videos_by_base.get(base, [])`: global video index. -/
def videosByBase (walk : List SrcFile) (b : String) : List String :=
  ((videosOf walk).filter fun f => decide (f.base = b)).map SrcFile.path

/-- Insertion-ordered key accumulation of a Python dict. -/
def keyIns {α : Type} [DecidableEq α] (ks : List α) (k : α) : List α :=
  if k ∈ ks then ks else ks ++ [k]

/-- Key list of the `by_dir_base` dict: `(root, base)` keys in first-insertion
order, as iterated by Pass A. -/
def groupKeys (walk : List SrcFile) : List (String × String) :=
  (mediaFiles walk).foldl (fun ks f => keyIns ks (f.dir, f.base)) []

/-- The `match_type` component of a pair tuple. -/
inductive MatchType
  | same_dir
  | cross_dir
deriving DecidableEq

/-- A `PairInfo` tuple `(match_type, base, still, video)`. -/
structure PairInfo where
  matchType : MatchType
  base : String
  still : String
  video : String
deriving DecidableEq

/-- The mutable state of `find_pairs`: the growing pair list, the
`used_files` set, and the two pair counters of `self.stats`. -/
structure PairState where
  pairs : List PairInfo
  used : List String
  sameDirPairs : Nat
  crossDirPairs : Nat
deriving DecidableEq

/-- `len(still_list) == 1 and len(video_list) == 1`: the exact-1:1 guard of
both passes, returning the unique still and video when it holds. -/
def pick11 : List String → List String → Option (String × String)
  | [s], [v] => some (s, v)
  | _, _ => none

/-- Emitting a same-directory pair: append the tuple, mark both files used,
increment `same_dir_pairs`. -/
def emitSame (st : PairState) (b s v : String) : PairState :=
  { pairs := st.pairs ++ [{ matchType := MatchType.same_dir, base := b, still := s, video := v }],
    used := st.used ++ [s, v],
    sameDirPairs := st.sameDirPairs + 1,
    crossDirPairs := st.crossDirPairs }

/-- Emitting a cross-directory pair: append the tuple, mark both files used,
increment `cross_dir_pairs`. -/
def emitCross (st : PairState) (b s v : String) : PairState :=
  { pairs := st.pairs ++ [{ matchType := MatchType.cross_dir, base := b, still := s, video := v }],
    used := st.used ++ [s, v],
    sameDirPairs := st.sameDirPairs,
    crossDirPairs := st.crossDirPairs + 1 }

/-- One iteration of Pass A over a `(directory, basename)` group. -/
def passAStep (walk : List SrcFile) (st : PairState) (k : String × String) : PairState :=
  match pick11 (groupStills walk k.1 k.2) (groupVideos walk k.1 k.2) with
  | some (s, v) => emitSame st k.2 s v
  | none => st

/-- One iteration of Pass B over a basename: filter out used files, require an
exact 1:1 remainder, then apply the duration gate (probe only when the
configured threshold is positive; `None` or an excessive duration rejects the
candidate by `continue`). -/
def passBStep (maxDur : ℚ) (probe : String → Option ℚ) (walk : List SrcFile)
    (st : PairState) (b : String) : PairState :=
  match pick11 ((stillsByBase walk b).filter fun p => decide (p ∉ st.used))
      ((videosByBase walk b).filter fun p => decide (p ∉ st.used)) with
  | none => st
  | some (s, v) =>
    if 0 < maxDur then
      match probe v with
      | none => st
      | some d => if d ≤ maxDur then emitCross st b s v else st
    else emitCross st b s v

/-- `sorted(set(stills_by_base) | set(videos_by_base))`: every basename holding
a media file, deduplicated and in lexicographic order. -/
def allBasesSorted (walk : List SrcFile) : List String :=
  List.insertionSort (· ≤ ·) ((mediaFiles walk).map (·.base)).dedup

/-- Pass A of `find_pairs`. -/
def passA (walk : List SrcFile) : PairState :=
  (groupKeys walk).foldl (passAStep walk)
    { pairs := [], used := [], sameDirPairs := 0, crossDirPairs := 0 }

/-- `find_pairs`: Pass A over the per-directory groups, then Pass B over the
sorted basenames. -/
def findPairs (maxDur : ℚ) (probe : String → Option ℚ) (walk : List SrcFile) : PairState :=
  (allBasesSorted walk).foldl (passBStep maxDur probe walk) (passA walk)

/-- An `orphaned_videos` issue record. -/
structure OrphanRec where
  base : String
  video_path : String
  duration : Option ℚ
deriving DecidableEq

/-- Video basenames in first-insertion order (keys of `videos_by_base`). -/
def videoBaseKeys (walk : List SrcFile) : List String :=
  (videosOf walk).foldl (fun ks f => keyIns ks f.base) []

/-- One basename of the orphan check (see `detect_orphaned_videos`). -/
def orphanStep (maxDur : ℚ) (probe : String → Option ℚ) (walk : List SrcFile)
    (acc : List OrphanRec) (b : String) : List OrphanRec :=
  if stillsByBase walk b = [] then
    match videosByBase walk b with
    | [] => acc
    | v :: _ =>
      if 0 < maxDur then
        match probe v with
        | some d => if d ≤ maxDur then acc ++ [⟨b, v, some d⟩] else acc
        | none => acc
      else acc ++ [⟨b, v, probe v⟩]
  else acc

/-- Modelled from the spec: `detect_orphaned_videos` is invoked by the GUI and
by the test suite but its definition is absent from the processor source. Per
the spec's orphan check, every basename with videos but no still counterpart,
whose probed first-video duration is at most the configured threshold (a
non-positive threshold disables the duration check), is reported as a
likely-orphaned Live-Photo video. -/
def detect_orphaned_videos (maxDur : ℚ) (probe : String → Option ℚ)
    (walk : List SrcFile) : List OrphanRec :=
  (videoBaseKeys walk).foldl (orphanStep maxDur probe walk) []

/-- OS-level exception identity: which operation raised. -/
inductive OSErr
  | linkFail
  | copyFail
deriving DecidableEq

/-- A recorded filesystem write. -/
inductive FsOp
  | mkdirParent (dst : String)
  | mkdir (d : String)
  | openWrite (p : String)
  | appendRow (p : String)
  | linkFile (src dst : String)
  | copyFile (src dst : String)
deriving DecidableEq

/-- Failure oracle for `os.symlink` and `shutil.copy2`. -/
structure Oracle where
  symlinkFails : String → String → Bool
  copyFails : String → String → Bool

/-- Processor configuration (the fields of `GoogleTakeoutProcessor.__init__`
that the staging engine reads). -/
structure Config where
  copy_files : Bool
  dry_run : Bool
  max_video_duration : ℚ
  dedupe_leftovers : Bool

/-- `safe_link_or_copy`: make the parent directory, no-op when the destination
exists, otherwise copy in copy mode (re-raising a copy failure) or symlink in
link mode, falling back to a copy when the symlink raises `OSError` (with that
fallback copy itself uncaught). The filesystem is the list of existing
destination paths. -/
def safe_link_or_copy (copy_files : Bool) (o : Oracle) (fs : List String)
    (src dst : String) : Except OSErr (List String × List FsOp) :=
  if dst ∈ fs then Except.ok (fs, [FsOp.mkdirParent dst])
  else if copy_files then
    if o.copyFails src dst then Except.error OSErr.copyFail
    else Except.ok (dst :: fs, [FsOp.mkdirParent dst, FsOp.copyFile src dst])
  else if o.symlinkFails src dst then
    if o.copyFails src dst then Except.error OSErr.copyFail
    else Except.ok (dst :: fs, [FsOp.mkdirParent dst, FsOp.copyFile src dst])
  else Except.ok (dst :: fs, [FsOp.mkdirParent dst, FsOp.linkFile src dst])

/-- Zero-padded decimal, `f-string` style: pads to the width, keeping longer
numerals whole. -/
def padNum (w n : Nat) : String :=
  let s := toString n
  String.mk (List.replicate (w - s.length) '0') ++ s

/-- `Path(p).suffix` of a POSIX path string: the final dot-suffix of the last
component, empty for plain or dot-leading names. -/
def suffixOf (p : String) : String :=
  let name := (p.splitOn "/").getLastD ""
  let parts := name.splitOn "."
  if 2 ≤ parts.length ∧ parts.headD "" ≠ "" then "." ++ parts.getLastD "" else ""

/-- Path of the pairs manifest. -/
def pairsManifest (pairs_dir : String) : String := pairs_dir ++ "/manifest_pairs.tsv"

/-- Path of the leftovers manifest. -/
def leftsManifest (left_dir : String) : String := left_dir ++ "/manifest_leftovers.tsv"

/-- State of `process_pairs`: filesystem, recorded writes, `pair_hashes`. -/
structure PairsOut where
  fs : List String
  effs : List FsOp
  pair_hashes : List String
deriving DecidableEq

/-- The staging loop of `process_pairs`, over the enumerated pair list. The
source hashes the staged output files; link-or-copy preserves content, so the
digests are modelled as the digests of the corresponding sources. -/
def stagePairs (cfg : Config) (o : Oracle) (sha1 : String → String) (pairs_dir : String) :
    Nat → List PairInfo → PairsOut → Except OSErr PairsOut
  | _, [], st => Except.ok st
  | i, p :: rest, st =>
    if cfg.dry_run then stagePairs cfg o sha1 pairs_dir (i + 1) rest st
    else
      match safe_link_or_copy cfg.copy_files o st.fs p.still
          (pairs_dir ++ "/" ++ (padNum 5 i ++ "_" ++ p.base) ++ "__STILL" ++ suffixOf p.still) with
      | Except.error e => Except.error e
      | Except.ok (fs1, e1) =>
        match safe_link_or_copy cfg.copy_files o fs1 p.video
            (pairs_dir ++ "/" ++ (padNum 5 i ++ "_" ++ p.base) ++ "__VIDEO" ++ suffixOf p.video) with
        | Except.error e => Except.error e
        | Except.ok (fs2, e2) =>
          stagePairs cfg o sha1 pairs_dir (i + 1) rest
            { fs := fs2,
              effs := st.effs ++ e1 ++ e2 ++ [FsOp.appendRow (pairsManifest pairs_dir)],
              pair_hashes := st.pair_hashes ++
                (if cfg.dedupe_leftovers then [sha1 p.still, sha1 p.video] else []) }

/-- `process_pairs`: create the destination directory and the manifest header
unless dry-running, then stage each pair with a 1-based sequence number. -/
def process_pairs (cfg : Config) (o : Oracle) (sha1 : String → String)
    (pairs_dir : String) (prs : List PairInfo) (fs0 : List String) : Except OSErr PairsOut :=
  stagePairs cfg o sha1 pairs_dir 1 prs
    { fs := fs0,
      effs := if cfg.dry_run then []
        else [FsOp.mkdir pairs_dir, FsOp.openWrite (pairsManifest pairs_dir)],
      pair_hashes := [] }

/-- State of `process_leftovers`: filesystem, recorded writes, the two leftover
counters, the `leftover_id` counter, and the seen `leftovers_hashes`. -/
structure LeftOut where
  fs : List String
  effs : List FsOp
  leftovers_staged : Nat
  leftovers_skipped : Nat
  next_id : Nat
  seen : List String
deriving DecidableEq

/-- The staging action at the bottom of the leftover loop body: in dry-run
only the counter moves, otherwise link-or-copy then append a manifest row. -/
def leftStage (cfg : Config) (o : Oracle) (left_dir : String) (f : SrcFile)
    (id : Nat) (out : String) (st' : LeftOut) : Except OSErr LeftOut :=
  if cfg.dry_run then
    Except.ok { st' with next_id := id, leftovers_staged := st'.leftovers_staged + 1 }
  else
    match safe_link_or_copy cfg.copy_files o st'.fs f.path out with
    | Except.error e => Except.error e
    | Except.ok (fs', effs') =>
      Except.ok
        { st' with
          fs := fs',
          next_id := id,
          effs := st'.effs ++ effs' ++ [FsOp.appendRow (leftsManifest left_dir)],
          leftovers_staged := st'.leftovers_staged + 1 }

/-- One iteration of the `process_leftovers` walk loop over a scanned file:
skip unrecognized extensions and used files, optionally dedupe by content
hash, then stage. -/
def leftStep (cfg : Config) (o : Oracle) (sha1 : String → String) (left_dir : String)
    (used pair_hashes : List String) (st : LeftOut) (f : SrcFile) : Except OSErr LeftOut :=
  if lowerStr f.ext ∈ ALL_EXTENSIONS then
    if f.path ∈ used then Except.ok st
    else if cfg.dedupe_leftovers && !cfg.dry_run then
      if sha1 f.path ∈ pair_hashes ∨ sha1 f.path ∈ st.seen then
        Except.ok
          { st with
            next_id := st.next_id + 1,
            leftovers_skipped := st.leftovers_skipped + 1,
            effs := st.effs ++ [FsOp.appendRow (leftsManifest left_dir)] }
      else
        leftStage cfg o left_dir f (st.next_id + 1)
          (left_dir ++ "/L" ++ padNum 6 (st.next_id + 1) ++ "__" ++ f.filename)
          { st with seen := st.seen ++ [sha1 f.path] }
    else
      leftStage cfg o left_dir f (st.next_id + 1)
        (left_dir ++ "/L" ++ padNum 6 (st.next_id + 1) ++ "__" ++ f.filename) st
  else Except.ok st

/-- The walk loop of `process_leftovers`. -/
def stageLeftovers (cfg : Config) (o : Oracle) (sha1 : String → String) (left_dir : String)
    (used pair_hashes : List String) : List SrcFile → LeftOut → Except OSErr LeftOut
  | [], st => Except.ok st
  | f :: rest, st =>
    match leftStep cfg o sha1 left_dir used pair_hashes st f with
    | Except.error e => Except.error e
    | Except.ok st' => stageLeftovers cfg o sha1 left_dir used pair_hashes rest st'

/-- `process_leftovers`: create the destination directory and manifest header
unless dry-running, then stage every recognized file not used by a pair. -/
def process_leftovers (cfg : Config) (o : Oracle) (sha1 : String → String)
    (left_dir : String) (walk : List SrcFile) (used pair_hashes : List String)
    (fs0 : List String) : Except OSErr LeftOut :=
  stageLeftovers cfg o sha1 left_dir used pair_hashes walk
    { fs := fs0,
      effs := if cfg.dry_run then []
        else [FsOp.mkdir left_dir, FsOp.openWrite (leftsManifest left_dir)],
      leftovers_staged := 0, leftovers_skipped := 0, next_id := 0, seen := [] }

/-- The assembled result of a `process()` run. -/
structure RunOut where
  fs : List String
  effs : List FsOp
  stats_scanned : Nat
  stats_same : Nat
  stats_cross : Nat
  stats_staged : Nat
  stats_skipped : Nat
  pairs : List PairInfo
  used : List String
deriving DecidableEq

/-- The staging pipeline of `process()`: scan (every walked file increments
`total_scanned`), `find_pairs`, `process_pairs`, `process_leftovers`. -/
def processRun (cfg : Config) (o : Oracle) (probe : String → Option ℚ)
    (sha1 : String → String) (pairs_dir left_dir : String)
    (walk : List SrcFile) (fs0 : List String) : Except OSErr RunOut :=
  let ps := findPairs cfg.max_video_duration probe walk
  match process_pairs cfg o sha1 pairs_dir ps.pairs fs0 with
  | Except.error e => Except.error e
  | Except.ok po =>
    match process_leftovers cfg o sha1 left_dir walk ps.used po.pair_hashes po.fs with
    | Except.error e => Except.error e
    | Except.ok lo =>
      Except.ok
        { fs := lo.fs, effs := po.effs ++ lo.effs,
          stats_scanned := walk.length,
          stats_same := ps.sameDirPairs, stats_cross := ps.crossDirPairs,
          stats_staged := lo.leftovers_staged, stats_skipped := lo.leftovers_skipped,
          pairs := ps.pairs, used := ps.used }

/-- Two pairs share no file. -/
def disjPair (p q : PairInfo) : Prop :=
  p.still ≠ q.still ∧ p.still ≠ q.video ∧ p.video ≠ q.still ∧ p.video ≠ q.video

/-- Invariant of the Pass A fold, relative to the remaining key list `R`:
bookkeeping of `used_files` and the pair list, plus the characterisation of
every used path as a member of an already-processed exact-1:1 group. -/
structure AInv (walk : List SrcFile) (st : PairState) (R : List (String × String)) : Prop where
  nodup_used : st.used.Nodup
  len_used : st.used.length = 2 * st.pairs.length
  same_count : st.sameDirPairs = st.pairs.length
  cross_count : st.crossDirPairs = 0
  pairs_mt : ∀ p ∈ st.pairs, p.matchType = MatchType.same_dir
  pairs_used : ∀ p ∈ st.pairs, p.still ∈ st.used ∧ p.video ∈ st.used ∧ p.still ≠ p.video
  pairs_disj : st.pairs.Pairwise disjPair
  used_char : ∀ u ∈ st.used, ∃ f, f ∈ mediaFiles walk ∧ SrcFile.path f = u ∧
    (f.dir, f.base) ∉ R ∧ (groupStills walk f.dir f.base).length = 1 ∧
    (groupVideos walk f.dir f.base).length = 1

/-- Invariant of the Pass B fold, relative to the Pass A result `stA` and the
remaining basename list `RB`: every used path either was used by Pass A or
belongs to a basename already processed by Pass B, and every cross-directory
pair already emitted has its two files in different directories. -/
structure BInv (walk : List SrcFile) (stA st : PairState) (RB : List String) : Prop where
  nodup_used : st.used.Nodup
  len_used : st.used.length = 2 * st.pairs.length
  count_sum : st.sameDirPairs + st.crossDirPairs = st.pairs.length
  pairs_used : ∀ p ∈ st.pairs, p.still ∈ st.used ∧ p.video ∈ st.used ∧ p.still ≠ p.video
  pairs_disj : st.pairs.Pairwise disjPair
  usedA_sub : ∀ u ∈ stA.used, u ∈ st.used
  used_char : ∀ u ∈ st.used, ∃ f, f ∈ mediaFiles walk ∧ SrcFile.path f = u ∧
    (u ∈ stA.used ∨ f.base ∉ RB)
  cross_dirs : ∀ p ∈ st.pairs, p.matchType = MatchType.cross_dir →
    ∀ f g, f ∈ mediaFiles walk → g ∈ mediaFiles walk →
      SrcFile.path f = p.still → SrcFile.path g = p.video → f.dir ≠ g.dir

/-- Concrete probe (every video 3 seconds) for witnesses. -/
def probeW : String → Option ℚ := fun _ => some 3

/-- Concrete content digest (identity) for witnesses. -/
def shaW : String → String := fun s => s

/-- Oracle on which no OS call ever fails. -/
def oW : Oracle := ⟨fun _ _ => false, fun _ _ => false⟩

/-- Oracle on which every symlink fails and every copy succeeds. -/
def oLinkFailW : Oracle := ⟨fun _ _ => true, fun _ _ => false⟩

/-- Oracle on which every copy fails. -/
def oCopyFailW : Oracle := ⟨fun _ _ => true, fun _ _ => true⟩

/-- Link-mode, non-dry configuration with the default 6-second threshold. -/
def cfgW : Config := ⟨false, false, 6, false⟩

/-- The same configuration with dry-run enabled. -/
def cfgDryW : Config := ⟨false, true, 6, false⟩

/-- A still in directory A and a video in directory B sharing a basename. -/
def wCross : List SrcFile := [⟨"A", "IMG_2", ".jpg"⟩, ⟨"B", "IMG_2", ".mp4"⟩]

/-- A same-directory 1:1 pair plus an unrecognized file. -/
def wSame : List SrcFile := [⟨"A", "IMG_1", ".heic"⟩, ⟨"A", "IMG_1", ".mov"⟩, ⟨"A", "note", ".txt"⟩]

/-- A lone short video with no still counterpart. -/
def wOrphan : List SrcFile := [⟨"A", "V1", ".mov"⟩]

/-- The first-run result of the stager over `wCross` into empty destinations. -/
def c5r1 : RunOut :=
  ((processRun cfgW oW probeW shaW "P" "L" wCross []).toOption).getD
    ⟨[], [], 0, 0, 0, 0, 0, [], []⟩

/-- A run result over `wSame` used to instantiate the statistics bound. -/
def c8r : RunOut :=
  ((processRun cfgW oW probeW shaW "P" "L" wSame []).toOption).getD
    ⟨[], [], 0, 0, 0, 0, 0, [], []⟩

theorem stagePairs_dry (cfg : Config) (o : Oracle) (sha1 : String → String)
    (pd : String) (h : cfg.dry_run = true) :
    ∀ (l : List PairInfo) (i : Nat) (st : PairsOut),
      stagePairs cfg o sha1 pd i l st = Except.ok st := by
  intro l
  induction l with
  | nil => intro i st; rfl
  | cons p rest ih => intro i st; simp [stagePairs, h, ih]

theorem leftStep_dry (cfg : Config) (o : Oracle) (sha1 : String → String)
    (ld : String) (used ph : List String) (h : cfg.dry_run = true)
    (st : LeftOut) (f : SrcFile) :
    ∃ st', leftStep cfg o sha1 ld used ph st f = Except.ok st' ∧
      st'.fs = st.fs ∧ st'.effs = st.effs ∧ st'.seen = st.seen := by
  unfold leftStep leftStage
  simp only [h, Bool.not_true, Bool.and_false, Bool.false_eq_true, if_false, if_true]
  split_ifs <;> exact ⟨_, rfl, rfl, rfl, rfl⟩

theorem stageLeftovers_dry (cfg : Config) (o : Oracle) (sha1 : String → String)
    (ld : String) (used ph : List String) (h : cfg.dry_run = true) :
    ∀ (l : List SrcFile) (st : LeftOut),
      ∃ st', stageLeftovers cfg o sha1 ld used ph l st = Except.ok st' ∧
        st'.fs = st.fs ∧ st'.effs = st.effs := by
  intro l
  induction l with
  | nil => intro st; exact ⟨st, rfl, rfl, rfl⟩
  | cons f rest ih =>
    intro st
    obtain ⟨s1, h1, hfs, heff, _⟩ := leftStep_dry cfg o sha1 ld used ph h st f
    obtain ⟨s2, h2, hfs2, heff2⟩ := ih s1
    exact ⟨s2, by simp [stageLeftovers, h1, h2], by rw [hfs2, hfs], by rw [heff2, heff]⟩

/-- C6: with dry-run enabled, the staging pipeline performs zero filesystem
writes — no directory creation, no manifest open or append, no link and no
copy are recorded, the filesystem is unchanged, and no error is raised; the
only remaining filesystem activity is reading the walk and probing
durations. -/
theorem c6_dry_run_writes_nothing (cfg : Config) (o : Oracle)
    (probe : String → Option ℚ) (sha1 : String → String) (pd ld : String)
    (walk : List SrcFile) (fs0 : List String) (hdry : cfg.dry_run = true) :
    ∃ out, processRun cfg o probe sha1 pd ld walk fs0 = Except.ok out ∧
      out.effs = [] ∧ out.fs = fs0 := by
  obtain ⟨lf, hlf, hfs, heffs⟩ := stageLeftovers_dry cfg o sha1 ld
    (findPairs cfg.max_video_duration probe walk).used [] hdry walk
    { fs := fs0, effs := [], leftovers_staged := 0, leftovers_skipped := 0,
      next_id := 0, seen := [] }
  have hpp : process_pairs cfg o sha1 pd (findPairs cfg.max_video_duration probe walk).pairs fs0 =
      Except.ok ⟨fs0, [], []⟩ := by
    simp only [process_pairs, hdry, reduceIte]
    exact stagePairs_dry cfg o sha1 pd hdry _ 1 _
  have hpl : process_leftovers cfg o sha1 ld walk
      (findPairs cfg.max_video_duration probe walk).used [] fs0 = Except.ok lf := by
    simp only [process_leftovers, hdry, reduceIte]
    exact hlf
  simp only [processRun, hpp, hpl]
  exact ⟨_, rfl, by simpa using heffs, by simpa using hfs⟩

/-- Closed instance of the C6 dry-run theorem on a concrete configuration and
source tree. -/
theorem c6_witness :
    ∃ out, processRun cfgDryW oW probeW shaW "P" "L" wSame [] = Except.ok out ∧
      out.effs = [] ∧ out.fs = [] :=
  c6_dry_run_writes_nothing cfgDryW oW probeW shaW "P" "L" wSame [] rfl

/-- C1: the Pass B loop body, on a basename with exactly one not-yet-used
still and exactly one not-yet-used video: with a positive threshold the pair
is emitted precisely when the probed duration is non-null and at most the
threshold, while a null probe or an excessive duration leaves the state
unchanged (both files fall through to leftovers, no exception exists in the
model); with a non-positive threshold the pair is emitted for every probe
function, i.e. without consulting the prober. -/
theorem c1_pass_b_duration_gate (maxDur : ℚ) (probe : String → Option ℚ)
    (walk : List SrcFile) (st : PairState) (b s v : String)
    (hS : (stillsByBase walk b).filter (fun p => decide (p ∉ st.used)) = [s])
    (hV : (videosByBase walk b).filter (fun p => decide (p ∉ st.used)) = [v]) :
    (0 < maxDur →
      (∀ d, probe v = some d → d ≤ maxDur →
        passBStep maxDur probe walk st b = emitCross st b s v) ∧
      (∀ d, probe v = some d → maxDur < d → passBStep maxDur probe walk st b = st) ∧
      (probe v = none → passBStep maxDur probe walk st b = st)) ∧
    (maxDur ≤ 0 → ∀ probe' : String → Option ℚ,
      passBStep maxDur probe' walk st b = emitCross st b s v) ∧
    emitCross st b s v ≠ st := by
  refine ⟨fun h0 => ⟨?_, ?_, ?_⟩, fun h0 probe' => ?_, fun hEq => ?_⟩
  · intro d hd hle
    unfold passBStep
    rw [hS, hV]
    simp [pick11, h0, hd, hle]
  · intro d hd hgt
    unfold passBStep
    rw [hS, hV]
    simp [pick11, h0, hd, not_le.mpr hgt]
  · intro hnone
    unfold passBStep
    rw [hS, hV]
    simp [pick11, h0, hnone]
  · unfold passBStep
    rw [hS, hV]
    simp [pick11, not_lt.mpr h0]
  · have hlen := congrArg (fun t => t.pairs.length) hEq
    simp [emitCross] at hlen

/-- Closed instance of the C1 gate theorem: the two-file cross-directory
example, with the 1:1 remainder hypotheses checked by evaluation. -/
theorem c1_witness :
    (0 < (6 : ℚ) →
      (∀ d, probeW "B/IMG_2.mp4" = some d → d ≤ 6 →
        passBStep 6 probeW wCross ⟨[], [], 0, 0⟩ "IMG_2" =
          emitCross ⟨[], [], 0, 0⟩ "IMG_2" "A/IMG_2.jpg" "B/IMG_2.mp4") ∧
      (∀ d, probeW "B/IMG_2.mp4" = some d → (6 : ℚ) < d →
        passBStep 6 probeW wCross ⟨[], [], 0, 0⟩ "IMG_2" = ⟨[], [], 0, 0⟩) ∧
      (probeW "B/IMG_2.mp4" = none →
        passBStep 6 probeW wCross ⟨[], [], 0, 0⟩ "IMG_2" = ⟨[], [], 0, 0⟩)) ∧
    ((6 : ℚ) ≤ 0 → ∀ probe' : String → Option ℚ,
      passBStep 6 probe' wCross ⟨[], [], 0, 0⟩ "IMG_2" =
        emitCross ⟨[], [], 0, 0⟩ "IMG_2" "A/IMG_2.jpg" "B/IMG_2.mp4") ∧
    emitCross ⟨[], [], 0, 0⟩ "IMG_2" "A/IMG_2.jpg" "B/IMG_2.mp4" ≠ ⟨[], [], 0, 0⟩ :=
  c1_pass_b_duration_gate 6 probeW wCross ⟨[], [], 0, 0⟩ "IMG_2"
    "A/IMG_2.jpg" "B/IMG_2.mp4" (by decide) (by decide)

/-- C9: in link mode, when symlink creation raises an OS-level error while the
destination does not yet exist, `safe_link_or_copy` falls back to copying the
file, and a symlink failure is never re-raised: no link-mode call can return
the link error. -/
theorem c9_symlink_failure_falls_back_to_copy (o : Oracle) (fs : List String)
    (src dst : String) (hdst : dst ∉ fs) (hlink : o.symlinkFails src dst = true)
    (hcopy : o.copyFails src dst = false) :
    safe_link_or_copy false o fs src dst =
      Except.ok (dst :: fs, [FsOp.mkdirParent dst, FsOp.copyFile src dst]) ∧
    ∀ (o' : Oracle) (fs' : List String) (s' d' : String),
      safe_link_or_copy false o' fs' s' d' ≠ Except.error OSErr.linkFail := by
  constructor
  · simp [safe_link_or_copy, hdst, hlink, hcopy]
  · intro o' fs' s' d'
    unfold safe_link_or_copy
    split_ifs <;> simp

/-- Closed instance of the C9 fallback theorem on the always-failing-symlink
oracle. -/
theorem c9_witness :
    safe_link_or_copy false oLinkFailW [] "A/IMG_2.jpg" "P/out.jpg" =
      Except.ok (["P/out.jpg"],
        [FsOp.mkdirParent "P/out.jpg", FsOp.copyFile "A/IMG_2.jpg" "P/out.jpg"]) ∧
    ∀ (o' : Oracle) (fs' : List String) (s' d' : String),
      safe_link_or_copy false o' fs' s' d' ≠ Except.error OSErr.linkFail :=
  c9_symlink_failure_falls_back_to_copy oLinkFailW [] "A/IMG_2.jpg" "P/out.jpg"
    (by simp) rfl rfl

/-- C10: in copy mode, an OS-level failure of the copy operation on a fresh
destination is re-raised to the caller, unlike the absorbed link-mode symlink
failure. -/
theorem c10_copy_mode_failure_reraised (o : Oracle) (fs : List String)
    (src dst : String) (hdst : dst ∉ fs) (hcopy : o.copyFails src dst = true) :
    safe_link_or_copy true o fs src dst = Except.error OSErr.copyFail := by
  simp [safe_link_or_copy, hdst, hcopy]

/-- Closed instance of the C10 re-raise theorem on the always-failing-copy
oracle. -/
theorem c10_witness :
    safe_link_or_copy true oCopyFailW [] "A/IMG_2.jpg" "P/out.jpg" =
      Except.error OSErr.copyFail :=
  c10_copy_mode_failure_reraised oCopyFailW [] "A/IMG_2.jpg" "P/out.jpg" (by simp) rfl

theorem orphanStep_append (maxDur : ℚ) (probe : String → Option ℚ)
    (walk : List SrcFile) (acc : List OrphanRec) (b : String) :
    ∃ t, orphanStep maxDur probe walk acc b = acc ++ t := by
  unfold orphanStep
  by_cases h1 : stillsByBase walk b = []
  · rw [if_pos h1]
    rcases videosByBase walk b with _ | ⟨v, vs⟩
    · exact ⟨[], by simp⟩
    · by_cases h0 : 0 < maxDur
      · rcases hpr : probe v with _ | d
        · exact ⟨[], by simp [h0, hpr]⟩
        · by_cases hle : d ≤ maxDur
          · exact ⟨[⟨b, v, some d⟩], by simp [h0, hpr, hle]⟩
          · exact ⟨[], by simp [h0, hpr, hle]⟩
      · exact ⟨[⟨b, v, probe v⟩], by simp [h0]⟩
  · rw [if_neg h1]
    exact ⟨[], by simp⟩

theorem orphan_fold_mono (maxDur : ℚ) (probe : String → Option ℚ)
    (walk : List SrcFile) :
    ∀ (l : List String) (acc : List OrphanRec) (r : OrphanRec), r ∈ acc →
      r ∈ List.foldl (orphanStep maxDur probe walk) acc l := by
  intro l
  induction l with
  | nil => intro acc r hr; simpa using hr
  | cons b rest ih =>
    intro acc r hr
    rw [List.foldl_cons]
    obtain ⟨t, ht⟩ := orphanStep_append maxDur probe walk acc b
    exact ih _ r (by rw [ht]; exact List.mem_append_left t hr)

theorem orphan_fold_mem (maxDur : ℚ) (probe : String → Option ℚ)
    (walk : List SrcFile) (b v : String) (vs : List String)
    (hnostill : stillsByBase walk b = [])
    (hv : videosByBase walk b = v :: vs)
    (hdur : 0 < maxDur → ∃ d, probe v = some d ∧ d ≤ maxDur) :
    ∀ (l : List String) (acc : List OrphanRec), b ∈ l →
      ∃ r ∈ List.foldl (orphanStep maxDur probe walk) acc l,
        r.base = b ∧ r.video_path = v := by
  intro l
  induction l with
  | nil => intro acc hb; simp at hb
  | cons hd rest ih =>
    intro acc hb
    rw [List.foldl_cons]
    rcases List.mem_cons.mp hb with rfl | hb'
    · by_cases h0 : 0 < maxDur
      · obtain ⟨d, hd', hle⟩ := hdur h0
        have hrec : (⟨b, v, some d⟩ : OrphanRec) ∈ orphanStep maxDur probe walk acc b := by
          unfold orphanStep
          rw [hnostill, hv]
          simp [h0, hd', hle]
        exact ⟨_, orphan_fold_mono maxDur probe walk rest _ _ hrec, rfl, rfl⟩
      · have hrec : (⟨b, v, probe v⟩ : OrphanRec) ∈ orphanStep maxDur probe walk acc b := by
          unfold orphanStep
          rw [hnostill, hv]
          simp [h0]
        exact ⟨_, orphan_fold_mono maxDur probe walk rest _ _ hrec, rfl, rfl⟩
    · exact ih _ hb'

/-- C4: the issue-detection phase reports an orphaned-video record for every
basename that has videos in the index but no still counterpart, provided the
probed duration of its video is at most the configured threshold (a
non-positive threshold disables the duration check, reporting the orphan
unconditionally). -/
theorem c4_orphaned_videos_reported (maxDur : ℚ) (probe : String → Option ℚ)
    (walk : List SrcFile) (b v : String) (vs : List String)
    (hb : b ∈ videoBaseKeys walk)
    (hnostill : stillsByBase walk b = [])
    (hv : videosByBase walk b = v :: vs)
    (hdur : 0 < maxDur → ∃ d, probe v = some d ∧ d ≤ maxDur) :
    ∃ r ∈ detect_orphaned_videos maxDur probe walk, r.base = b ∧ r.video_path = v :=
  orphan_fold_mem maxDur probe walk b v vs hnostill hv hdur (videoBaseKeys walk) [] hb

/-- Closed instance of the C4 orphan theorem on a lone short video. -/
theorem c4_witness :
    ∃ r ∈ detect_orphaned_videos 6 probeW wOrphan, r.base = "V1" ∧ r.video_path = "A/V1.mov" :=
  c4_orphaned_videos_reported 6 probeW wOrphan "V1" "A/V1.mov" []
    (by decide) (by decide) (by decide) (fun _ => ⟨3, rfl, by decide⟩)

theorem passBStep_shape (maxDur : ℚ) (probe : String → Option ℚ)
    (walk : List SrcFile) (st : PairState) (b : String) :
    passBStep maxDur probe walk st b = st ∨
    ∃ s v, passBStep maxDur probe walk st b = emitCross st b s v := by
  unfold passBStep
  rcases hp : pick11 ((stillsByBase walk b).filter fun p => decide (p ∉ st.used))
      ((videosByBase walk b).filter fun p => decide (p ∉ st.used)) with _ | ⟨s, v⟩
  · left; rfl
  · by_cases h0 : 0 < maxDur
    · rcases hpr : probe v with _ | d
      · left; simp [h0, hpr]
      · by_cases hle : d ≤ maxDur
        · right; exact ⟨s, v, by simp [h0, hpr, hle]⟩
        · left; simp [h0, hpr, hle]
    · right; exact ⟨s, v, by simp [h0]⟩

theorem passB_fold_shape (maxDur : ℚ) (probe : String → Option ℚ) (walk : List SrcFile) :
    ∀ (l : List String) (st : PairState),
      ∃ ex, (List.foldl (passBStep maxDur probe walk) st l).pairs = st.pairs ++ ex ∧
        (∀ p ∈ ex, p.matchType = MatchType.cross_dir) ∧
        List.Sublist (ex.map PairInfo.base) l := by
  intro l
  induction l with
  | nil => intro st; exact ⟨[], by simp, by simp, by simp⟩
  | cons b rest ih =>
    intro st
    rcases passBStep_shape maxDur probe walk st b with h | ⟨s, v, h⟩
    · obtain ⟨ex, hp, hmt, hsub⟩ := ih (passBStep maxDur probe walk st b)
      rw [h] at hp
      refine ⟨ex, ?_, hmt, ?_⟩
      · rw [List.foldl_cons, h]; exact hp
      · exact hsub.trans (List.sublist_cons_self b rest)
    · obtain ⟨ex, hp, hmt, hsub⟩ := ih (passBStep maxDur probe walk st b)
      rw [h] at hp
      refine ⟨{ matchType := MatchType.cross_dir, base := b, still := s, video := v } :: ex, ?_, ?_, ?_⟩
      · rw [List.foldl_cons, h, hp]; simp [emitCross]
      · intro p hp'
        rcases List.mem_cons.mp hp' with rfl | h'
        · rfl
        · exact hmt _ h'
      · simpa using List.Sublist.cons₂ b hsub

theorem passAStep_shape (walk : List SrcFile) (st : PairState) (k : String × String) :
    passAStep walk st k = st ∨ ∃ s v, passAStep walk st k = emitSame st k.2 s v := by
  unfold passAStep
  rcases hp : pick11 (groupStills walk k.1 k.2) (groupVideos walk k.1 k.2) with _ | ⟨s, v⟩
  · left; rfl
  · right; exact ⟨s, v, rfl⟩

theorem passA_fold_same (walk : List SrcFile) :
    ∀ (R : List (String × String)) (st : PairState),
      (∀ p ∈ st.pairs, p.matchType = MatchType.same_dir) →
      ∀ p ∈ (List.foldl (passAStep walk) st R).pairs, p.matchType = MatchType.same_dir := by
  intro R
  induction R with
  | nil => intro st h; simpa using h
  | cons k rest ih =>
    intro st h
    rw [List.foldl_cons]
    refine ih _ ?_
    rcases passAStep_shape walk st k with hk | ⟨s, v, hk⟩
    · rw [hk]; exact h
    · rw [hk]
      intro p hp
      have hp' : p ∈ st.pairs ∨ p = ⟨MatchType.same_dir, k.2, s, v⟩ := by
        simpa [emitSame] using hp
      rcases hp' with h' | rfl
      · exact h p h'
      · rfl

theorem passA_all_same (walk : List SrcFile) :
    ∀ p ∈ (passA walk).pairs, p.matchType = MatchType.same_dir :=
  passA_fold_same walk (groupKeys walk) _ (by simp)

/-- C2: the pair list produced by `find_pairs` is an ordered concatenation of
the Pass A pairs (all same-directory) followed by the Pass B pairs (all
cross-directory), and the Pass B portion is in lexicographically sorted
basename order. -/
theorem c2_pair_list_ordering (maxDur : ℚ) (probe : String → Option ℚ)
    (walk : List SrcFile) :
    ∃ A B, (findPairs maxDur probe walk).pairs = A ++ B ∧
      (∀ p ∈ A, p.matchType = MatchType.same_dir) ∧
      (∀ p ∈ B, p.matchType = MatchType.cross_dir) ∧
      List.Sorted (· ≤ ·) (B.map PairInfo.base) := by
  obtain ⟨ex, hp, hmt, hsub⟩ :=
    passB_fold_shape maxDur probe walk (allBasesSorted walk) (passA walk)
  refine ⟨(passA walk).pairs, ex, hp, passA_all_same walk, hmt, ?_⟩
  have hsorted : List.Sorted (· ≤ ·) (allBasesSorted walk) :=
    List.sorted_insertionSort (· ≤ ·) _
  exact List.Pairwise.sublist hsub hsorted

theorem mem_groupStills {walk : List SrcFile} {d b x : String} :
    x ∈ groupStills walk d b ↔
    ∃ f, f ∈ mediaFiles walk ∧ IsStill f ∧ f.dir = d ∧ f.base = b ∧ SrcFile.path f = x := by
  simp only [groupStills, stillsOf, List.mem_map, List.mem_filter, decide_eq_true_eq]
  constructor
  · rintro ⟨f, ⟨⟨hf, hst⟩, hdb⟩, hp⟩
    exact ⟨f, hf, hst, hdb.1, hdb.2, hp⟩
  · rintro ⟨f, hf, hst, h1, h2, hp⟩
    exact ⟨f, ⟨⟨hf, hst⟩, h1, h2⟩, hp⟩

theorem mem_groupVideos {walk : List SrcFile} {d b x : String} :
    x ∈ groupVideos walk d b ↔
    ∃ f, f ∈ mediaFiles walk ∧ ¬ IsStill f ∧ f.dir = d ∧ f.base = b ∧ SrcFile.path f = x := by
  simp only [groupVideos, videosOf, List.mem_map, List.mem_filter, decide_eq_true_eq]
  constructor
  · rintro ⟨f, ⟨⟨hf, hst⟩, hdb⟩, hp⟩
    exact ⟨f, hf, hst, hdb.1, hdb.2, hp⟩
  · rintro ⟨f, hf, hst, h1, h2, hp⟩
    exact ⟨f, ⟨⟨hf, hst⟩, h1, h2⟩, hp⟩

theorem mem_stillsByBase {walk : List SrcFile} {b x : String} :
    x ∈ stillsByBase walk b ↔
    ∃ f, f ∈ mediaFiles walk ∧ IsStill f ∧ f.base = b ∧ SrcFile.path f = x := by
  simp only [stillsByBase, stillsOf, List.mem_map, List.mem_filter, decide_eq_true_eq]
  constructor
  · rintro ⟨f, ⟨⟨hf, hst⟩, hb⟩, hp⟩
    exact ⟨f, hf, hst, hb, hp⟩
  · rintro ⟨f, hf, hst, hb, hp⟩
    exact ⟨f, ⟨⟨hf, hst⟩, hb⟩, hp⟩

theorem mem_videosByBase {walk : List SrcFile} {b x : String} :
    x ∈ videosByBase walk b ↔
    ∃ f, f ∈ mediaFiles walk ∧ ¬ IsStill f ∧ f.base = b ∧ SrcFile.path f = x := by
  simp only [videosByBase, videosOf, List.mem_map, List.mem_filter, decide_eq_true_eq]
  constructor
  · rintro ⟨f, ⟨⟨hf, hst⟩, hb⟩, hp⟩
    exact ⟨f, hf, hst, hb, hp⟩
  · rintro ⟨f, hf, hst, hb, hp⟩
    exact ⟨f, ⟨⟨hf, hst⟩, hb⟩, hp⟩

theorem path_inj {walk : List SrcFile}
    (HN : ((mediaFiles walk).map SrcFile.path).Nodup) {f g : SrcFile}
    (hf : f ∈ mediaFiles walk) (hg : g ∈ mediaFiles walk)
    (h : SrcFile.path f = SrcFile.path g) : f = g :=
  List.inj_on_of_nodup_map HN hf hg h

theorem nodup_groupStills {walk : List SrcFile}
    (HN : ((mediaFiles walk).map SrcFile.path).Nodup) (d b : String) :
    (groupStills walk d b).Nodup := by
  have hsub : ((stillsOf walk).filter fun f => decide (f.dir = d ∧ f.base = b)).Sublist
      (mediaFiles walk) :=
    (List.filter_sublist _).trans (List.filter_sublist _)
  exact List.Nodup.sublist (hsub.map SrcFile.path) HN

theorem nodup_groupVideos {walk : List SrcFile}
    (HN : ((mediaFiles walk).map SrcFile.path).Nodup) (d b : String) :
    (groupVideos walk d b).Nodup := by
  have hsub : ((videosOf walk).filter fun f => decide (f.dir = d ∧ f.base = b)).Sublist
      (mediaFiles walk) :=
    (List.filter_sublist _).trans (List.filter_sublist _)
  exact List.Nodup.sublist (hsub.map SrcFile.path) HN

theorem mem_keyIns {α : Type} [DecidableEq α] {ks : List α} {k x : α} :
    x ∈ keyIns ks k ↔ x ∈ ks ∨ x = k := by
  unfold keyIns
  split_ifs with h
  · constructor
    · exact Or.inl
    · rintro (hx | rfl)
      · exact hx
      · exact h
  · simp

theorem nodup_keyIns {α : Type} [DecidableEq α] {ks : List α} (h : ks.Nodup) (k : α) :
    (keyIns ks k).Nodup := by
  unfold keyIns
  split_ifs with hk
  · exact h
  · rw [List.nodup_append]
    exact ⟨h, List.nodup_singleton k, fun a ha hb => hk (by rwa [List.mem_singleton.mp hb] at ha)⟩

theorem foldl_keyIns_nodup {α β : Type} [DecidableEq β] (key : α → β) :
    ∀ (l : List α) (ks : List β), ks.Nodup →
      (List.foldl (fun ks f => keyIns ks (key f)) ks l).Nodup := by
  intro l
  induction l with
  | nil => intro ks h; simpa using h
  | cons a rest ih => intro ks h; rw [List.foldl_cons]; exact ih _ (nodup_keyIns h _)

theorem mem_foldl_keyIns {α β : Type} [DecidableEq β] (key : α → β) :
    ∀ (l : List α) (ks : List β) (x : β),
      x ∈ List.foldl (fun ks f => keyIns ks (key f)) ks l ↔ x ∈ ks ∨ ∃ f ∈ l, key f = x := by
  intro l
  induction l with
  | nil => intro ks x; simp
  | cons a rest ih =>
    intro ks x
    rw [List.foldl_cons, ih]
    rw [mem_keyIns]
    constructor
    · rintro (⟨hx | rfl⟩ | ⟨f, hf, hk⟩)
      · exact Or.inl hx
      · exact Or.inr ⟨a, List.mem_cons_self a rest, rfl⟩
      · exact Or.inr ⟨f, List.mem_cons_of_mem a hf, hk⟩
    · rintro (hx | ⟨f, hf, hk⟩)
      · exact Or.inl (Or.inl hx)
      · rcases List.mem_cons.mp hf with rfl | hf'
        · exact Or.inl (Or.inr hk.symm)
        · exact Or.inr ⟨f, hf', hk⟩

theorem groupKeys_nodup (walk : List SrcFile) : (groupKeys walk).Nodup :=
  foldl_keyIns_nodup _ (mediaFiles walk) [] List.nodup_nil

theorem mem_groupKeys {walk : List SrcFile} {d b : String} :
    (d, b) ∈ groupKeys walk ↔ ∃ f ∈ mediaFiles walk, f.dir = d ∧ f.base = b := by
  unfold groupKeys
  rw [mem_foldl_keyIns]
  simp [Prod.ext_iff]

theorem length_one_mem {α : Type} {l : List α} {s : α} (h : l.length = 1) (hs : s ∈ l) :
    l = [s] := by
  rcases l with _ | ⟨a, _ | ⟨b, t⟩⟩
  · simp at hs
  · rw [List.mem_singleton.mp hs]
  · simp at h

theorem exists_second {α : Type} {l : List α} {s : α} (hnd : l.Nodup) (hs : s ∈ l)
    (hlen : l.length ≠ 1) : ∃ x ∈ l, x ≠ s := by
  by_contra hall
  push_neg at hall
  apply hlen
  rcases l with _ | ⟨a, t⟩
  · simp at hs
  · have ha : a = s := hall a (List.mem_cons_self a t)
    have ht : t = [] := by
      rw [List.eq_nil_iff_forall_not_mem]
      intro x hx
      have hxa : x = s := hall x (List.mem_cons_of_mem a hx)
      rw [List.nodup_cons] at hnd
      exact hnd.1 (by rwa [ha, ← hxa])
    rw [ht]
    rfl

theorem pick11_eq_some {l1 l2 : List String} {s v : String} :
    pick11 l1 l2 = some (s, v) ↔ l1 = [s] ∧ l2 = [v] := by
  rcases l1 with _ | ⟨a, _ | ⟨a', t⟩⟩ <;> rcases l2 with _ | ⟨c, _ | ⟨c', u⟩⟩ <;>
    simp [pick11, and_assoc]

theorem filter_unused_singleton {l used : List String} {s : String}
    (h : l.filter (fun p => decide (p ∉ used)) = [s]) :
    s ∈ l ∧ s ∉ used ∧ ∀ x ∈ l, x ∉ used → x = s := by
  have hs : s ∈ l.filter (fun p => decide (p ∉ used)) := by
    rw [h]; exact List.mem_singleton_self s
  have hs' := List.mem_filter.mp hs
  refine ⟨hs'.1, by simpa using hs'.2, ?_⟩
  intro x hx hxu
  have : x ∈ l.filter (fun p => decide (p ∉ used)) :=
    List.mem_filter.mpr ⟨hx, by simpa using hxu⟩
  rw [h] at this
  exact List.mem_singleton.mp this

theorem still_video_path_ne {walk : List SrcFile}
    (HN : ((mediaFiles walk).map SrcFile.path).Nodup) {f g : SrcFile}
    (hf : f ∈ mediaFiles walk) (hg : g ∈ mediaFiles walk)
    (hfs : IsStill f) (hgv : ¬ IsStill g) : SrcFile.path f ≠ SrcFile.path g := by
  intro h
  exact hgv (path_inj HN hf hg h ▸ hfs)

theorem AInv_weaken (walk : List SrcFile) (st : PairState) (k : String × String)
    (R : List (String × String)) (hinv : AInv walk st (k :: R)) : AInv walk st R :=
  { hinv with
    used_char := fun u hu => by
      obtain ⟨f, h1, h2, h3, h4, h5⟩ := hinv.used_char u hu
      exact ⟨f, h1, h2, fun hc => h3 (List.mem_cons_of_mem k hc), h4, h5⟩ }

theorem AInv_step (walk : List SrcFile)
    (HN : ((mediaFiles walk).map SrcFile.path).Nodup)
    (st : PairState) (k : String × String) (R : List (String × String))
    (hkR : k ∉ R) (hinv : AInv walk st (k :: R)) :
    AInv walk (passAStep walk st k) R := by
  rcases hkp : pick11 (groupStills walk k.1 k.2) (groupVideos walk k.1 k.2) with _ | ⟨s, v⟩
  · have heq : passAStep walk st k = st := by unfold passAStep; rw [hkp]
    rw [heq]
    exact AInv_weaken walk st k R hinv
  · obtain ⟨hgs, hgv⟩ := pick11_eq_some.mp hkp
    have heq : passAStep walk st k = emitSame st k.2 s v := by unfold passAStep; rw [hkp]
    rw [heq]
    obtain ⟨fs, hfs_med, hfs_still, hfs_dir, hfs_base, hfs_path⟩ :=
      mem_groupStills.mp (show s ∈ groupStills walk k.1 k.2 by
        rw [hgs]; exact List.mem_singleton_self s)
    obtain ⟨fv, hfv_med, hfv_vid, hfv_dir, hfv_base, hfv_path⟩ :=
      mem_groupVideos.mp (show v ∈ groupVideos walk k.1 k.2 by
        rw [hgv]; exact List.mem_singleton_self v)
    have hsv : s ≠ v := by
      rw [← hfs_path, ← hfv_path]
      exact still_video_path_ne HN hfs_med hfv_med hfs_still hfv_vid
    have hs_not : s ∉ st.used := by
      intro hu
      obtain ⟨f, hf_med, hf_path, hf_notR, _, _⟩ := hinv.used_char s hu
      have hffs : f = fs := path_inj HN hf_med hfs_med (hf_path.trans hfs_path.symm)
      apply hf_notR
      rw [hffs, hfs_dir, hfs_base]
      exact List.mem_cons_self k R
    have hv_not : v ∉ st.used := by
      intro hu
      obtain ⟨f, hf_med, hf_path, hf_notR, _, _⟩ := hinv.used_char v hu
      have hffv : f = fv := path_inj HN hf_med hfv_med (hf_path.trans hfv_path.symm)
      apply hf_notR
      rw [hffv, hfv_dir, hfv_base]
      exact List.mem_cons_self k R
    refine ⟨?_, ?_, ?_, ?_, ?_, ?_, ?_, ?_⟩
    · show (st.used ++ [s, v]).Nodup
      rw [List.nodup_append]
      refine ⟨hinv.nodup_used, by simp [hsv], ?_⟩
      intro a ha hb
      rcases show a = s ∨ a = v by simpa using hb with rfl | rfl
      · exact hs_not ha
      · exact hv_not ha
    · have := hinv.len_used
      simp only [emitSame, List.length_append, List.length_cons, List.length_nil]
      omega
    · have := hinv.same_count
      simp only [emitSame, List.length_append, List.length_cons, List.length_nil]
      omega
    · exact hinv.cross_count
    · intro p hp
      rcases List.mem_append.mp hp with hp' | hp'
      · exact hinv.pairs_mt p hp'
      · rw [List.mem_singleton.mp hp']
    · intro p hp
      rcases List.mem_append.mp hp with hp' | hp'
      · obtain ⟨h1, h2, h3⟩ := hinv.pairs_used p hp'
        exact ⟨List.mem_append_left _ h1, List.mem_append_left _ h2, h3⟩
      · rw [List.mem_singleton.mp hp']
        exact ⟨List.mem_append_right _ (by simp), List.mem_append_right _ (by simp), hsv⟩
    · show (st.pairs ++ [_]).Pairwise disjPair
      rw [List.pairwise_append]
      refine ⟨hinv.pairs_disj, List.pairwise_singleton _ _, ?_⟩
      intro p hp q hq
      rw [List.mem_singleton.mp hq]
      obtain ⟨h1, h2, _⟩ := hinv.pairs_used p hp
      simp only [disjPair]
      exact ⟨fun he => hs_not (he ▸ h1), fun he => hv_not (he ▸ h1),
        fun he => hs_not (he ▸ h2), fun he => hv_not (he ▸ h2)⟩
    · intro u hu
      rcases List.mem_append.mp hu with hu' | hu'
      · obtain ⟨f, h1, h2, h3, h4, h5⟩ := hinv.used_char u hu'
        exact ⟨f, h1, h2, fun hc => h3 (List.mem_cons_of_mem k hc), h4, h5⟩
      · rcases show u = s ∨ u = v by simpa using hu' with rfl | rfl
        · refine ⟨fs, hfs_med, hfs_path, ?_, ?_, ?_⟩
          · rw [hfs_dir, hfs_base]; exact hkR
          · rw [hfs_dir, hfs_base, hgs]; rfl
          · rw [hfs_dir, hfs_base, hgv]; rfl
        · refine ⟨fv, hfv_med, hfv_path, ?_, ?_, ?_⟩
          · rw [hfv_dir, hfv_base]; exact hkR
          · rw [hfv_dir, hfv_base, hgs]; rfl
          · rw [hfv_dir, hfv_base, hgv]; rfl

theorem AInv_init (walk : List SrcFile) (R : List (String × String)) :
    AInv walk ⟨[], [], 0, 0⟩ R := by
  refine ⟨?_, ?_, ?_, ?_, ?_, ?_, ?_, ?_⟩ <;> simp

theorem AInv_fold (walk : List SrcFile)
    (HN : ((mediaFiles walk).map SrcFile.path).Nodup) :
    ∀ (R : List (String × String)), R.Nodup → ∀ st, AInv walk st R →
      AInv walk (List.foldl (passAStep walk) st R) [] := by
  intro R
  induction R with
  | nil => intro _ st h; simpa using h
  | cons k R' ih =>
    intro hnd st h
    rw [List.foldl_cons]
    rw [List.nodup_cons] at hnd
    exact ih hnd.2 _ (AInv_step walk HN st k R' hnd.1 h)

theorem AInv_passA (walk : List SrcFile)
    (HN : ((mediaFiles walk).map SrcFile.path).Nodup) : AInv walk (passA walk) [] :=
  AInv_fold walk HN (groupKeys walk) (groupKeys_nodup walk) _ (AInv_init walk _)

theorem passAStep_used_mono (walk : List SrcFile) (st : PairState) (k : String × String) :
    ∀ a ∈ st.used, a ∈ (passAStep walk st k).used := by
  rcases passAStep_shape walk st k with h | ⟨s, v, h⟩ <;> rw [h]
  · exact fun a ha => ha
  · exact fun a ha => List.mem_append_left _ ha

theorem passA_foldl_used_mono (walk : List SrcFile) :
    ∀ (R : List (String × String)) (st : PairState) (a : String),
      a ∈ st.used → a ∈ (List.foldl (passAStep walk) st R).used := by
  intro R
  induction R with
  | nil => intro st a ha; simpa using ha
  | cons k R' ih =>
    intro st a ha
    rw [List.foldl_cons]
    exact ih _ a (passAStep_used_mono walk st k a ha)

theorem passA_fold_used_of_11 (walk : List SrcFile) (d b s v : String)
    (hgs : groupStills walk d b = [s]) (hgv : groupVideos walk d b = [v]) :
    ∀ (R : List (String × String)) (st : PairState), (d, b) ∈ R →
      s ∈ (List.foldl (passAStep walk) st R).used ∧
      v ∈ (List.foldl (passAStep walk) st R).used := by
  intro R
  induction R with
  | nil => intro st h; simp at h
  | cons k R' ih =>
    intro st hk
    rw [List.foldl_cons]
    rcases List.mem_cons.mp hk with heq | hk'
    · have hstep : passAStep walk st k = emitSame st k.2 s v := by
        unfold passAStep
        rw [← heq, hgs, hgv]
        rfl
      rw [hstep]
      constructor <;> exact passA_foldl_used_mono walk R' _ _
        (List.mem_append_right _ (by simp))
    · exact ih _ hk'

theorem passA_used_of_11 (walk : List SrcFile) (d b s v : String)
    (hgs : groupStills walk d b = [s]) (hgv : groupVideos walk d b = [v]) :
    s ∈ (passA walk).used ∧ v ∈ (passA walk).used := by
  have hk : (d, b) ∈ groupKeys walk := by
    obtain ⟨f, hf_med, _, hf_dir, hf_base, _⟩ :=
      mem_groupStills.mp (show s ∈ groupStills walk d b by
        rw [hgs]; exact List.mem_singleton_self s)
    exact mem_groupKeys.mpr ⟨f, hf_med, hf_dir, hf_base⟩
  exact passA_fold_used_of_11 walk d b s v hgs hgv (groupKeys walk) _ hk

theorem passBStep_cases (maxDur : ℚ) (probe : String → Option ℚ)
    (walk : List SrcFile) (st : PairState) (b : String) :
    passBStep maxDur probe walk st b = st ∨
    ∃ s v, ((stillsByBase walk b).filter fun p => decide (p ∉ st.used)) = [s] ∧
      ((videosByBase walk b).filter fun p => decide (p ∉ st.used)) = [v] ∧
      passBStep maxDur probe walk st b = emitCross st b s v := by
  unfold passBStep
  rcases hp : pick11 ((stillsByBase walk b).filter fun p => decide (p ∉ st.used))
      ((videosByBase walk b).filter fun p => decide (p ∉ st.used)) with _ | ⟨s, v⟩
  · left; rfl
  · obtain ⟨hS, hV⟩ := pick11_eq_some.mp hp
    by_cases h0 : 0 < maxDur
    · rcases hpr : probe v with _ | d
      · left; simp [h0, hpr]
      · by_cases hle : d ≤ maxDur
        · right; exact ⟨s, v, hS, hV, by simp [h0, hpr, hle]⟩
        · left; simp [h0, hpr, hle]
    · right; exact ⟨s, v, hS, hV, by simp [h0]⟩

theorem cross_sep (walk : List SrcFile)
    (HN : ((mediaFiles walk).map SrcFile.path).Nodup)
    (stA st : PairState) (b : String) (RB : List String)
    (HA1 : ∀ u ∈ stA.used, ∃ f, f ∈ mediaFiles walk ∧ SrcFile.path f = u ∧
      (groupStills walk f.dir f.base).length = 1 ∧ (groupVideos walk f.dir f.base).length = 1)
    (HA2 : ∀ d b' s' v', groupStills walk d b' = [s'] → groupVideos walk d b' = [v'] →
      s' ∈ stA.used ∧ v' ∈ stA.used)
    (husedA : ∀ u ∈ stA.used, u ∈ st.used)
    (huc : ∀ u ∈ st.used, ∃ f, f ∈ mediaFiles walk ∧ SrcFile.path f = u ∧
      (u ∈ stA.used ∨ f.base ∉ b :: RB))
    {s v : String}
    (hS : (stillsByBase walk b).filter (fun p => decide (p ∉ st.used)) = [s])
    (hV : (videosByBase walk b).filter (fun p => decide (p ∉ st.used)) = [v]) :
    ∀ f g, f ∈ mediaFiles walk → g ∈ mediaFiles walk →
      SrcFile.path f = s → SrcFile.path g = v → f.dir ≠ g.dir := by
  intro f g hf hg hpf hpg hdir
  obtain ⟨hsSB, hs_not, hs_uniq⟩ := filter_unused_singleton hS
  obtain ⟨hvVB, hv_not, hv_uniq⟩ := filter_unused_singleton hV
  obtain ⟨f', hf'_med, hf'_still, hf'_base, hf'_path⟩ := mem_stillsByBase.mp hsSB
  have hff : f = f' := path_inj HN hf hf'_med (hpf.trans hf'_path.symm)
  have hf_still : IsStill f := by rw [hff]; exact hf'_still
  have hf_base : f.base = b := by rw [hff]; exact hf'_base
  obtain ⟨g', hg'_med, hg'_vid, hg'_base, hg'_path⟩ := mem_videosByBase.mp hvVB
  have hgg : g = g' := path_inj HN hg hg'_med (hpg.trans hg'_path.symm)
  have hg_vid : ¬ IsStill g := by rw [hgg]; exact hg'_vid
  have hg_base : g.base = b := by rw [hgg]; exact hg'_base
  have hsGS : s ∈ groupStills walk f.dir b :=
    mem_groupStills.mpr ⟨f, hf, hf_still, rfl, hf_base, hpf⟩
  have hvGV : v ∈ groupVideos walk f.dir b :=
    mem_groupVideos.mpr ⟨g, hg, hg_vid, hdir.symm, hg_base, hpg⟩
  by_cases h11 : (groupStills walk f.dir b).length = 1 ∧ (groupVideos walk f.dir b).length = 1
  · have hgs := length_one_mem h11.1 hsGS
    have hgv := length_one_mem h11.2 hvGV
    exact hs_not (husedA s (HA2 f.dir b s v hgs hgv).1)
  · rcases not_and_or.mp h11 with hlen | hlen
    · obtain ⟨s2, hs2_mem, hs2_ne⟩ :=
        exists_second (nodup_groupStills HN f.dir b) hsGS hlen
      obtain ⟨f2, hf2_med, hf2_still, hf2_dir, hf2_base, hf2_path⟩ :=
        mem_groupStills.mp hs2_mem
      have hs2SB : s2 ∈ stillsByBase walk b :=
        mem_stillsByBase.mpr ⟨f2, hf2_med, hf2_still, hf2_base, hf2_path⟩
      by_cases hs2u : s2 ∈ st.used
      · obtain ⟨f2', hf2'_med, hf2'_path, hdisj⟩ := huc s2 hs2u
        have he2 : f2' = f2 := path_inj HN hf2'_med hf2_med (hf2'_path.trans hf2_path.symm)
        rcases hdisj with hA | hnb
        · obtain ⟨f3, hf3_med, hf3_path, hlen1, _⟩ := HA1 s2 hA
          have he3 : f3 = f2 := path_inj HN hf3_med hf2_med (hf3_path.trans hf2_path.symm)
          exact hlen (by rw [he3, hf2_dir, hf2_base] at hlen1; exact hlen1)
        · exact hnb (by rw [he2, hf2_base]; exact List.mem_cons_self b RB)
      · exact hs2_ne (hs_uniq s2 hs2SB hs2u)
    · obtain ⟨v2, hv2_mem, hv2_ne⟩ :=
        exists_second (nodup_groupVideos HN f.dir b) hvGV hlen
      obtain ⟨g2, hg2_med, hg2_vid, hg2_dir, hg2_base, hg2_path⟩ :=
        mem_groupVideos.mp hv2_mem
      have hv2VB : v2 ∈ videosByBase walk b :=
        mem_videosByBase.mpr ⟨g2, hg2_med, hg2_vid, hg2_base, hg2_path⟩
      by_cases hv2u : v2 ∈ st.used
      · obtain ⟨g2', hg2'_med, hg2'_path, hdisj⟩ := huc v2 hv2u
        have he2 : g2' = g2 := path_inj HN hg2'_med hg2_med (hg2'_path.trans hg2_path.symm)
        rcases hdisj with hA | hnb
        · obtain ⟨g3, hg3_med, hg3_path, _, hlen2⟩ := HA1 v2 hA
          have he3 : g3 = g2 := path_inj HN hg3_med hg2_med (hg3_path.trans hg2_path.symm)
          exact hlen (by rw [he3, hg2_dir, hg2_base] at hlen2; exact hlen2)
        · exact hnb (by rw [he2, hg2_base]; exact List.mem_cons_self b RB)
      · exact hv2_ne (hv_uniq v2 hv2VB hv2u)

theorem BInv_weaken (walk : List SrcFile) (stA st : PairState) (b : String)
    (RB : List String) (hinv : BInv walk stA st (b :: RB)) : BInv walk stA st RB :=
  { hinv with
    used_char := fun u hu => by
      obtain ⟨f, h1, h2, h3⟩ := hinv.used_char u hu
      refine ⟨f, h1, h2, ?_⟩
      rcases h3 with h' | h'
      · exact Or.inl h'
      · exact Or.inr fun hc => h' (List.mem_cons_of_mem b hc) }

theorem BInv_step (walk : List SrcFile)
    (HN : ((mediaFiles walk).map SrcFile.path).Nodup) (stA : PairState)
    (HA1 : ∀ u ∈ stA.used, ∃ f, f ∈ mediaFiles walk ∧ SrcFile.path f = u ∧
      (groupStills walk f.dir f.base).length = 1 ∧ (groupVideos walk f.dir f.base).length = 1)
    (HA2 : ∀ d b' s' v', groupStills walk d b' = [s'] → groupVideos walk d b' = [v'] →
      s' ∈ stA.used ∧ v' ∈ stA.used)
    (maxDur : ℚ) (probe : String → Option ℚ) (st : PairState) (b : String)
    (RB : List String) (hbRB : b ∉ RB) (hinv : BInv walk stA st (b :: RB)) :
    BInv walk stA (passBStep maxDur probe walk st b) RB := by
  rcases passBStep_cases maxDur probe walk st b with h | ⟨s, v, hS, hV, h⟩
  · rw [h]
    exact BInv_weaken walk stA st b RB hinv
  · rw [h]
    obtain ⟨hsSB, hs_not, _⟩ := filter_unused_singleton hS
    obtain ⟨hvVB, hv_not, _⟩ := filter_unused_singleton hV
    obtain ⟨fs, hfs_med, hfs_still, hfs_base, hfs_path⟩ := mem_stillsByBase.mp hsSB
    obtain ⟨fv, hfv_med, hfv_vid, hfv_base, hfv_path⟩ := mem_videosByBase.mp hvVB
    have hsv : s ≠ v := by
      rw [← hfs_path, ← hfv_path]
      exact still_video_path_ne HN hfs_med hfv_med hfs_still hfv_vid
    have hsep := cross_sep walk HN stA st b RB HA1 HA2 hinv.usedA_sub hinv.used_char hS hV
    refine ⟨?_, ?_, ?_, ?_, ?_, ?_, ?_, ?_⟩
    · show (st.used ++ [s, v]).Nodup
      rw [List.nodup_append]
      refine ⟨hinv.nodup_used, by simp [hsv], ?_⟩
      intro a ha hb'
      rcases show a = s ∨ a = v by simpa using hb' with rfl | rfl
      · exact hs_not ha
      · exact hv_not ha
    · have := hinv.len_used
      simp only [emitCross, List.length_append, List.length_cons, List.length_nil]
      omega
    · have := hinv.count_sum
      simp only [emitCross, List.length_append, List.length_cons, List.length_nil]
      omega
    · intro p hp
      rcases List.mem_append.mp hp with hp' | hp'
      · obtain ⟨h1, h2, h3⟩ := hinv.pairs_used p hp'
        exact ⟨List.mem_append_left _ h1, List.mem_append_left _ h2, h3⟩
      · rw [List.mem_singleton.mp hp']
        exact ⟨List.mem_append_right _ (by simp), List.mem_append_right _ (by simp), hsv⟩
    · show (st.pairs ++ [_]).Pairwise disjPair
      rw [List.pairwise_append]
      refine ⟨hinv.pairs_disj, List.pairwise_singleton _ _, ?_⟩
      intro p hp q hq
      rw [List.mem_singleton.mp hq]
      obtain ⟨h1, h2, _⟩ := hinv.pairs_used p hp
      simp only [disjPair]
      exact ⟨fun he => hs_not (he ▸ h1), fun he => hv_not (he ▸ h1),
        fun he => hs_not (he ▸ h2), fun he => hv_not (he ▸ h2)⟩
    · intro u hu
      exact List.mem_append_left _ (hinv.usedA_sub u hu)
    · intro u hu
      rcases List.mem_append.mp hu with hu' | hu'
      · obtain ⟨f, h1, h2, h3⟩ := hinv.used_char u hu'
        refine ⟨f, h1, h2, ?_⟩
        rcases h3 with h' | h'
        · exact Or.inl h'
        · exact Or.inr fun hc => h' (List.mem_cons_of_mem b hc)
      · rcases show u = s ∨ u = v by simpa using hu' with rfl | rfl
        · exact ⟨fs, hfs_med, hfs_path, Or.inr (by rw [hfs_base]; exact hbRB)⟩
        · exact ⟨fv, hfv_med, hfv_path, Or.inr (by rw [hfv_base]; exact hbRB)⟩
    · intro p hp hmt f g hf hg hpf hpg
      rcases List.mem_append.mp hp with hp' | hp'
      · exact hinv.cross_dirs p hp' hmt f g hf hg hpf hpg
      · rw [List.mem_singleton.mp hp'] at hpf hpg
        exact hsep f g hf hg hpf hpg

theorem BInv_fold (walk : List SrcFile)
    (HN : ((mediaFiles walk).map SrcFile.path).Nodup) (stA : PairState)
    (HA1 : ∀ u ∈ stA.used, ∃ f, f ∈ mediaFiles walk ∧ SrcFile.path f = u ∧
      (groupStills walk f.dir f.base).length = 1 ∧ (groupVideos walk f.dir f.base).length = 1)
    (HA2 : ∀ d b' s' v', groupStills walk d b' = [s'] → groupVideos walk d b' = [v'] →
      s' ∈ stA.used ∧ v' ∈ stA.used)
    (maxDur : ℚ) (probe : String → Option ℚ) :
    ∀ (RB : List String), RB.Nodup → ∀ st, BInv walk stA st RB →
      BInv walk stA (List.foldl (passBStep maxDur probe walk) st RB) [] := by
  intro RB
  induction RB with
  | nil => intro _ st h; simpa using h
  | cons b RB' ih =>
    intro hnd st h
    rw [List.foldl_cons]
    rw [List.nodup_cons] at hnd
    exact ih hnd.2 _ (BInv_step walk HN stA HA1 HA2 maxDur probe st b RB' hnd.1 h)

theorem allBasesSorted_nodup (walk : List SrcFile) : (allBasesSorted walk).Nodup :=
  ((List.perm_insertionSort _ _).nodup_iff).mpr (List.nodup_dedup _)

theorem BInv_init (walk : List SrcFile)
    (HN : ((mediaFiles walk).map SrcFile.path).Nodup) :
    BInv walk (passA walk) (passA walk) (allBasesSorted walk) := by
  have hA := AInv_passA walk HN
  refine ⟨hA.nodup_used, hA.len_used, ?_, hA.pairs_used, hA.pairs_disj,
    fun u hu => hu, ?_, ?_⟩
  · rw [hA.same_count, hA.cross_count]
    omega
  · intro u hu
    obtain ⟨f, h1, h2, _, _, _⟩ := hA.used_char u hu
    exact ⟨f, h1, h2, Or.inl hu⟩
  · intro p hp hmt f g hf hg h1 h2
    have hsame := hA.pairs_mt p hp
    rw [hsame] at hmt
    simp at hmt

theorem passA_HA1 (walk : List SrcFile)
    (HN : ((mediaFiles walk).map SrcFile.path).Nodup) :
    ∀ u ∈ (passA walk).used, ∃ f, f ∈ mediaFiles walk ∧ SrcFile.path f = u ∧
      (groupStills walk f.dir f.base).length = 1 ∧
      (groupVideos walk f.dir f.base).length = 1 := by
  intro u hu
  obtain ⟨f, h1, h2, _, h4, h5⟩ := (AInv_passA walk HN).used_char u hu
  exact ⟨f, h1, h2, h4, h5⟩

theorem passA_HA2 (walk : List SrcFile) :
    ∀ d b' s' v', groupStills walk d b' = [s'] → groupVideos walk d b' = [v'] →
      s' ∈ (passA walk).used ∧ v' ∈ (passA walk).used :=
  fun d b' s' v' hgs hgv => passA_used_of_11 walk d b' s' v' hgs hgv

theorem findPairs_BInv (maxDur : ℚ) (probe : String → Option ℚ) (walk : List SrcFile)
    (HN : ((mediaFiles walk).map SrcFile.path).Nodup) :
    BInv walk (passA walk) (findPairs maxDur probe walk) [] := by
  unfold findPairs
  exact BInv_fold walk HN (passA walk) (passA_HA1 walk HN) (passA_HA2 walk) maxDur probe
    (allBasesSorted walk) (allBasesSorted_nodup walk) _ (BInv_init walk HN)

/-- C7: every cross-directory pair emitted by Pass B has its still file and
its video file located in different source directories. -/
theorem c7_cross_dir_pairs_in_different_dirs (maxDur : ℚ)
    (probe : String → Option ℚ) (walk : List SrcFile)
    (HN : ((mediaFiles walk).map SrcFile.path).Nodup) :
    ∀ p ∈ (findPairs maxDur probe walk).pairs, p.matchType = MatchType.cross_dir →
      ∀ f g, f ∈ mediaFiles walk → g ∈ mediaFiles walk →
        SrcFile.path f = p.still → SrcFile.path g = p.video → f.dir ≠ g.dir :=
  (findPairs_BInv maxDur probe walk HN).cross_dirs

/-- Closed instance of the C7 separation theorem: the emitted cross-directory
pair of the two-directory example has its still in directory A and its video
in directory B, all hypotheses checked by evaluation. -/
theorem c7_witness :
    (⟨"A", "IMG_2", ".jpg"⟩ : SrcFile).dir ≠ (⟨"B", "IMG_2", ".mp4"⟩ : SrcFile).dir :=
  c7_cross_dir_pairs_in_different_dirs 6 probeW wCross (by decide)
    ⟨MatchType.cross_dir, "IMG_2", "A/IMG_2.jpg", "B/IMG_2.mp4"⟩ (by decide) rfl
    ⟨"A", "IMG_2", ".jpg"⟩ ⟨"B", "IMG_2", ".mp4"⟩ (by decide) (by decide) rfl rfl

theorem slc_noop (cf : Bool) (o : Oracle) (fs : List String) (src dst : String)
    (hdst : dst ∈ fs) :
    safe_link_or_copy cf o fs src dst = Except.ok (fs, [FsOp.mkdirParent dst]) := by
  unfold safe_link_or_copy
  rw [if_pos hdst]

theorem slc_ok_char (cf : Bool) (o : Oracle) (fs : List String) (src dst : String)
    {fs' : List String} {effs : List FsOp}
    (h : safe_link_or_copy cf o fs src dst = Except.ok (fs', effs)) :
    (∀ x ∈ fs, x ∈ fs') ∧ dst ∈ fs' ∧ (dst ∈ fs → fs' = fs) ∧
    (∀ op ∈ effs, op = FsOp.mkdirParent dst ∨ op = FsOp.linkFile src dst ∨
      op = FsOp.copyFile src dst) := by
  unfold safe_link_or_copy at h
  split_ifs at h with h1 h2 h3 h4 h5
  · obtain ⟨rfl, rfl⟩ : fs' = fs ∧ effs = [FsOp.mkdirParent dst] := by
      simp only [Except.ok.injEq, Prod.mk.injEq] at h
      exact ⟨h.1.symm, h.2.symm⟩
    exact ⟨fun x hx => hx, h1, fun _ => rfl, by intro op hop; simp at hop; simp [hop]⟩
  · obtain ⟨rfl, rfl⟩ :
        fs' = dst :: fs ∧ effs = [FsOp.mkdirParent dst, FsOp.copyFile src dst] := by
      simp only [Except.ok.injEq, Prod.mk.injEq] at h
      exact ⟨h.1.symm, h.2.symm⟩
    refine ⟨fun x hx => List.mem_cons_of_mem _ hx, List.mem_cons_self _ _,
      fun hc => absurd hc h1, ?_⟩
    intro op hop
    rcases show op = FsOp.mkdirParent dst ∨ op = FsOp.copyFile src dst by
        simpa using hop with rfl | rfl
    · exact Or.inl rfl
    · exact Or.inr (Or.inr rfl)
  · obtain ⟨rfl, rfl⟩ :
        fs' = dst :: fs ∧ effs = [FsOp.mkdirParent dst, FsOp.copyFile src dst] := by
      simp only [Except.ok.injEq, Prod.mk.injEq] at h
      exact ⟨h.1.symm, h.2.symm⟩
    refine ⟨fun x hx => List.mem_cons_of_mem _ hx, List.mem_cons_self _ _,
      fun hc => absurd hc h1, ?_⟩
    intro op hop
    rcases show op = FsOp.mkdirParent dst ∨ op = FsOp.copyFile src dst by
        simpa using hop with rfl | rfl
    · exact Or.inl rfl
    · exact Or.inr (Or.inr rfl)
  · obtain ⟨rfl, rfl⟩ :
        fs' = dst :: fs ∧ effs = [FsOp.mkdirParent dst, FsOp.linkFile src dst] := by
      simp only [Except.ok.injEq, Prod.mk.injEq] at h
      exact ⟨h.1.symm, h.2.symm⟩
    refine ⟨fun x hx => List.mem_cons_of_mem _ hx, List.mem_cons_self _ _,
      fun hc => absurd hc h1, ?_⟩
    intro op hop
    rcases show op = FsOp.mkdirParent dst ∨ op = FsOp.linkFile src dst by
        simpa using hop with rfl | rfl
    · exact Or.inl rfl
    · exact Or.inr (Or.inl rfl)

theorem leftStage_effs_char (cfg : Config) (o : Oracle) (ld : String) (f : SrcFile)
    (id : Nat) (out : String) (st' r : LeftOut)
    (h : leftStage cfg o ld f id out st' = Except.ok r) :
    r.effs = st'.effs ∨
    ∃ effs', (∀ op ∈ effs', op = FsOp.mkdirParent out ∨
        op = FsOp.linkFile (SrcFile.path f) out ∨ op = FsOp.copyFile (SrcFile.path f) out) ∧
      r.effs = st'.effs ++ effs' ++ [FsOp.appendRow (leftsManifest ld)] := by
  unfold leftStage at h
  split_ifs at h with hd
  · obtain rfl := Except.ok.inj h
    left; rfl
  · rcases hslc : safe_link_or_copy cfg.copy_files o st'.fs (SrcFile.path f) out with e | ⟨fs', effs'⟩
    · rw [hslc] at h; simp at h
    · rw [hslc] at h
      obtain rfl := Except.ok.inj h
      exact Or.inr ⟨effs', (slc_ok_char _ _ _ _ _ hslc).2.2.2, rfl⟩

theorem leftStep_effs_src (cfg : Config) (o : Oracle) (sha1 : String → String)
    (ld : String) (used ph : List String) (st : LeftOut) (f : SrcFile) (r : LeftOut)
    (h : leftStep cfg o sha1 ld used ph st f = Except.ok r)
    (hprev : ∀ s d, FsOp.linkFile s d ∈ st.effs ∨ FsOp.copyFile s d ∈ st.effs → s ∉ used) :
    ∀ s d, FsOp.linkFile s d ∈ r.effs ∨ FsOp.copyFile s d ∈ r.effs → s ∉ used := by
  unfold leftStep at h
  by_cases h1 : lowerStr f.ext ∈ ALL_EXTENSIONS
  · rw [if_pos h1] at h
    by_cases h2 : SrcFile.path f ∈ used
    · rw [if_pos h2] at h
      obtain rfl := Except.ok.inj h
      exact hprev
    · rw [if_neg h2] at h
      have hstage : ∀ st', st'.effs = st.effs →
          leftStage cfg o ld f (st.next_id + 1)
            (ld ++ "/L" ++ padNum 6 (st.next_id + 1) ++ "__" ++ f.filename) st' =
            Except.ok r →
          ∀ s d, FsOp.linkFile s d ∈ r.effs ∨ FsOp.copyFile s d ∈ r.effs → s ∉ used := by
        intro st' heq hst s d hmem
        rcases leftStage_effs_char cfg o ld f _ _ st' r hst with he | ⟨effs', hops, he⟩
        · rw [he, heq] at hmem
          exact hprev s d hmem
        · rw [he, heq] at hmem
          have hmem' : (FsOp.linkFile s d ∈ st.effs ∨ FsOp.linkFile s d ∈ effs' ∨
              FsOp.linkFile s d = FsOp.appendRow (leftsManifest ld)) ∨
              (FsOp.copyFile s d ∈ st.effs ∨ FsOp.copyFile s d ∈ effs' ∨
              FsOp.copyFile s d = FsOp.appendRow (leftsManifest ld)) := by
            rcases hmem with hm | hm
            · left; simpa [or_assoc] using hm
            · right; simpa [or_assoc] using hm
          rcases hmem' with (hm | hm | hm) | (hm | hm | hm)
          · exact hprev s d (Or.inl hm)
          · rcases hops _ hm with he' | he' | he' <;> simp at he'
            · rw [he'.1]; exact h2
          · simp at hm
          · exact hprev s d (Or.inr hm)
          · rcases hops _ hm with he' | he' | he' <;> simp at he'
            · rw [he'.1]; exact h2
          · simp at hm
      by_cases h3 : (cfg.dedupe_leftovers && !cfg.dry_run) = true
      · rw [if_pos h3] at h
        by_cases h4 : sha1 (SrcFile.path f) ∈ ph ∨ sha1 (SrcFile.path f) ∈ st.seen
        · rw [if_pos h4] at h
          obtain rfl := Except.ok.inj h
          intro s d hmem
          apply hprev s d
          rcases hmem with hm | hm
          · rcases show FsOp.linkFile s d ∈ st.effs ∨
                FsOp.linkFile s d = FsOp.appendRow (leftsManifest ld) by
                simpa using hm with hm' | hm'
            · exact Or.inl hm'
            · simp at hm'
          · rcases show FsOp.copyFile s d ∈ st.effs ∨
                FsOp.copyFile s d = FsOp.appendRow (leftsManifest ld) by
                simpa using hm with hm' | hm'
            · exact Or.inr hm'
            · simp at hm'
        · rw [if_neg h4] at h
          exact hstage { st with seen := st.seen ++ [sha1 (SrcFile.path f)] } rfl h
      · rw [if_neg h3] at h
        exact hstage st rfl h
  · rw [if_neg h1] at h
    obtain rfl := Except.ok.inj h
    exact hprev

theorem stageLeftovers_effs_src (cfg : Config) (o : Oracle) (sha1 : String → String)
    (ld : String) (used ph : List String) :
    ∀ (l : List SrcFile) (st : LeftOut) (r : LeftOut),
      stageLeftovers cfg o sha1 ld used ph l st = Except.ok r →
      (∀ s d, FsOp.linkFile s d ∈ st.effs ∨ FsOp.copyFile s d ∈ st.effs → s ∉ used) →
      ∀ s d, FsOp.linkFile s d ∈ r.effs ∨ FsOp.copyFile s d ∈ r.effs → s ∉ used := by
  intro l
  induction l with
  | nil =>
    intro st r h hprev
    obtain rfl := Except.ok.inj h
    exact hprev
  | cons f rest ih =>
    intro st r h hprev
    rcases hstep : leftStep cfg o sha1 ld used ph st f with e | st1
    · rw [stageLeftovers, hstep] at h; simp at h
    · rw [stageLeftovers, hstep] at h
      exact ih st1 r h (leftStep_effs_src cfg o sha1 ld used ph st f st1 hstep hprev)

theorem process_leftovers_effs_src (cfg : Config) (o : Oracle) (sha1 : String → String)
    (ld : String) (walk : List SrcFile) (used ph fs0 : List String) (lo : LeftOut)
    (h : process_leftovers cfg o sha1 ld walk used ph fs0 = Except.ok lo) :
    ∀ s d, FsOp.linkFile s d ∈ lo.effs ∨ FsOp.copyFile s d ∈ lo.effs → s ∉ used := by
  refine stageLeftovers_effs_src cfg o sha1 ld used ph walk _ lo h ?_
  intro s d hmem
  rcases hmem with hm | hm <;>
    · exfalso
      revert hm
      split_ifs <;> simp

/-- C3: over any source tree whose walked media files have pairwise distinct
paths, no path occurs in two different pairs (nor twice inside one pair),
every paired file is in the used set, and the leftover stager never links or
copies a source path from the used set — each file is staged at most once. -/
theorem c3_each_file_staged_at_most_once (maxDur : ℚ) (probe : String → Option ℚ)
    (walk : List SrcFile)
    (HN : ((mediaFiles walk).map SrcFile.path).Nodup) :
    (findPairs maxDur probe walk).pairs.Pairwise disjPair ∧
    (∀ p ∈ (findPairs maxDur probe walk).pairs,
      p.still ∈ (findPairs maxDur probe walk).used ∧
      p.video ∈ (findPairs maxDur probe walk).used ∧ p.still ≠ p.video) ∧
    ∀ (cfg : Config) (o : Oracle) (sha1 : String → String) (ld : String)
      (ph fs0 : List String) (lo : LeftOut),
      process_leftovers cfg o sha1 ld walk (findPairs maxDur probe walk).used ph fs0 =
        Except.ok lo →
      ∀ s d, FsOp.linkFile s d ∈ lo.effs ∨ FsOp.copyFile s d ∈ lo.effs →
        s ∉ (findPairs maxDur probe walk).used := by
  have hB := findPairs_BInv maxDur probe walk HN
  exact ⟨hB.pairs_disj, hB.pairs_used,
    fun cfg o sha1 ld ph fs0 lo h => process_leftovers_effs_src cfg o sha1 ld walk _ ph fs0 lo h⟩

theorem leftStage_count (cfg : Config) (o : Oracle) (ld : String) (f : SrcFile)
    (id : Nat) (out : String) (st' r : LeftOut)
    (h : leftStage cfg o ld f id out st' = Except.ok r) :
    r.leftovers_staged = st'.leftovers_staged + 1 ∧
    r.leftovers_skipped = st'.leftovers_skipped := by
  unfold leftStage at h
  split_ifs at h with hd
  · obtain rfl := Except.ok.inj h
    exact ⟨rfl, rfl⟩
  · rcases hslc : safe_link_or_copy cfg.copy_files o st'.fs (SrcFile.path f) out with e | ⟨fs', effs'⟩
    · rw [hslc] at h; simp at h
    · rw [hslc] at h
      obtain rfl := Except.ok.inj h
      exact ⟨rfl, rfl⟩

theorem leftStep_count (cfg : Config) (o : Oracle) (sha1 : String → String)
    (ld : String) (used ph : List String) (st : LeftOut) (f : SrcFile) (r : LeftOut)
    (h : leftStep cfg o sha1 ld used ph st f = Except.ok r) :
    r.leftovers_staged + r.leftovers_skipped =
      st.leftovers_staged + st.leftovers_skipped +
      (if IsMedia f ∧ SrcFile.path f ∉ used then 1 else 0) := by
  unfold leftStep at h
  by_cases h1 : lowerStr f.ext ∈ ALL_EXTENSIONS
  · rw [if_pos h1] at h
    by_cases h2 : SrcFile.path f ∈ used
    · rw [if_pos h2] at h
      obtain rfl := Except.ok.inj h
      rw [if_neg (fun hC => hC.2 h2)]
      omega
    · rw [if_neg h2] at h
      rw [if_pos (show IsMedia f ∧ SrcFile.path f ∉ used from ⟨h1, h2⟩)]
      by_cases h3 : (cfg.dedupe_leftovers && !cfg.dry_run) = true
      · rw [if_pos h3] at h
        by_cases h4 : sha1 (SrcFile.path f) ∈ ph ∨ sha1 (SrcFile.path f) ∈ st.seen
        · rw [if_pos h4] at h
          obtain rfl := Except.ok.inj h
          simp only [LeftOut.leftovers_staged, LeftOut.leftovers_skipped]
          omega
        · rw [if_neg h4] at h
          obtain ⟨hst, hsk⟩ := leftStage_count cfg o ld f _ _ _ r h
          simp only [LeftOut.leftovers_staged, LeftOut.leftovers_skipped] at hst hsk
          omega
      · rw [if_neg h3] at h
        obtain ⟨hst, hsk⟩ := leftStage_count cfg o ld f _ _ _ r h
        omega
  · rw [if_neg h1] at h
    obtain rfl := Except.ok.inj h
    rw [if_neg (fun hC => h1 hC.1)]
    omega

theorem stageLeftovers_count (cfg : Config) (o : Oracle) (sha1 : String → String)
    (ld : String) (used ph : List String) :
    ∀ (l : List SrcFile) (st r : LeftOut),
      stageLeftovers cfg o sha1 ld used ph l st = Except.ok r →
      r.leftovers_staged + r.leftovers_skipped =
        st.leftovers_staged + st.leftovers_skipped +
        (l.filter fun f => decide (IsMedia f ∧ SrcFile.path f ∉ used)).length := by
  intro l
  induction l with
  | nil =>
    intro st r h
    obtain rfl := Except.ok.inj h
    simp
  | cons f rest ih =>
    intro st r h
    rcases hstep : leftStep cfg o sha1 ld used ph st f with e | st1
    · rw [stageLeftovers, hstep] at h; simp at h
    · rw [stageLeftovers, hstep] at h
      have hrest := ih st1 r h
      have hone := leftStep_count cfg o sha1 ld used ph st f st1 hstep
      have hlen : (List.filter (fun g => decide (IsMedia g ∧ SrcFile.path g ∉ used))
            (f :: rest)).length =
          (if IsMedia f ∧ SrcFile.path f ∉ used then 1 else 0) +
          (List.filter (fun g => decide (IsMedia g ∧ SrcFile.path g ∉ used)) rest).length := by
        by_cases hcond : IsMedia f ∧ SrcFile.path f ∉ used
        · rw [if_pos hcond,
            List.filter_cons_of_pos (p := fun g => decide (IsMedia g ∧ SrcFile.path g ∉ used))
              (decide_eq_true hcond), List.length_cons]
          omega
        · rw [if_neg hcond,
            List.filter_cons_of_neg (p := fun g => decide (IsMedia g ∧ SrcFile.path g ∉ used))
              (by simpa using hcond)]
          omega
      rw [hlen]
      by_cases hcond : IsMedia f ∧ SrcFile.path f ∉ used
      · rw [if_pos hcond] at hone ⊢
        omega
      · rw [if_neg hcond] at hone ⊢
        omega

theorem nodup_sub_count {α : Type} [DecidableEq α] (u l : List α) (hu : u.Nodup)
    (hsub : ∀ x ∈ u, x ∈ l) :
    u.length ≤ (l.filter fun x => decide (x ∈ u)).length :=
  (List.subperm_of_subset hu
    (fun x hx => List.mem_filter.mpr ⟨hsub x hx, by simpa using hx⟩)).length_le

theorem filter_length_split {α : Type} (p : α → Bool) :
    ∀ l : List α, (l.filter p).length + (l.filter fun a => !(p a)).length = l.length := by
  intro l
  induction l with
  | nil => rfl
  | cons a rest ih =>
    rcases hp : p a with _ | _ <;> simp [List.filter_cons, hp, ← ih] <;> omega

theorem length_filter_comp_map {α β : Type} (g : α → β) (p : β → Bool) :
    ∀ l : List α, ((l.map g).filter p).length = (l.filter fun a => p (g a)).length := by
  intro l
  induction l with
  | nil => rfl
  | cons a rest ih =>
    rcases hp : p (g a) with _ | _ <;> simp [List.filter_cons, hp, ih]

theorem processRun_inv (cfg : Config) (o : Oracle) (probe : String → Option ℚ)
    (sha1 : String → String) (pd ld : String) (walk : List SrcFile)
    (fs0 : List String) (r : RunOut)
    (h : processRun cfg o probe sha1 pd ld walk fs0 = Except.ok r) :
    ∃ po lo,
      process_pairs cfg o sha1 pd (findPairs cfg.max_video_duration probe walk).pairs fs0 =
        Except.ok po ∧
      process_leftovers cfg o sha1 ld walk (findPairs cfg.max_video_duration probe walk).used
        po.pair_hashes po.fs = Except.ok lo ∧
      r = ⟨lo.fs, po.effs ++ lo.effs, walk.length,
        (findPairs cfg.max_video_duration probe walk).sameDirPairs,
        (findPairs cfg.max_video_duration probe walk).crossDirPairs,
        lo.leftovers_staged, lo.leftovers_skipped,
        (findPairs cfg.max_video_duration probe walk).pairs,
        (findPairs cfg.max_video_duration probe walk).used⟩ := by
  simp only [processRun] at h
  rcases hpp : process_pairs cfg o sha1 pd
      (findPairs cfg.max_video_duration probe walk).pairs fs0 with e | po
  · simp only [hpp] at h
    simp at h
  · simp only [hpp] at h
    rcases hpl : process_leftovers cfg o sha1 ld walk
        (findPairs cfg.max_video_duration probe walk).used po.pair_hashes po.fs with e | lo
    · simp only [hpl] at h
      simp at h
    · simp only [hpl] at h
      exact ⟨po, lo, rfl, hpl, (Except.ok.inj h).symm⟩

/-- C8: for every completed run over a source tree whose walked media files
have pairwise distinct paths, the final statistics satisfy
`sameDirPairs + crossDirPairs + leftoversStaged + leftoversSkipped ≤
filesScanned`, where `filesScanned` counts every walked file, recognized
or not. -/
theorem c8_stats_bounded_by_scanned (cfg : Config) (o : Oracle)
    (probe : String → Option ℚ) (sha1 : String → String) (pd ld : String)
    (walk : List SrcFile) (fs0 : List String) (r : RunOut)
    (HN : ((mediaFiles walk).map SrcFile.path).Nodup)
    (h : processRun cfg o probe sha1 pd ld walk fs0 = Except.ok r) :
    r.stats_same + r.stats_cross + r.stats_staged + r.stats_skipped ≤ r.stats_scanned := by
  obtain ⟨po, lo, hpp, hpl, hr⟩ := processRun_inv cfg o probe sha1 pd ld walk fs0 r h
  subst hr
  have hB := findPairs_BInv cfg.max_video_duration probe walk HN
  -- leftovers: staged + skipped equals the number of unused media files
  have hcount := stageLeftovers_count cfg o sha1 ld
    (findPairs cfg.max_video_duration probe walk).used po.pair_hashes walk _ lo hpl
  simp only [List.length_nil] at hcount
  -- the filter over all files equals the filter over media files
  have hfilter : (walk.filter fun f => decide (IsMedia f ∧
      SrcFile.path f ∉ (findPairs cfg.max_video_duration probe walk).used)) =
      ((mediaFiles walk).filter fun f =>
        decide (SrcFile.path f ∉ (findPairs cfg.max_video_duration probe walk).used)) := by
    unfold mediaFiles
    rw [List.filter_filter]
    apply List.filter_congr
    intro f _
    simp [Bool.and_comm]
  -- counting: pairs consume twice their number of distinct used media paths
  have husedlen := hB.len_used
  have hsum := hB.count_sum
  have hused_sub : ∀ x ∈ (findPairs cfg.max_video_duration probe walk).used,
      x ∈ (mediaFiles walk).map SrcFile.path := by
    intro x hx
    obtain ⟨f, hf, hp, _⟩ := hB.used_char x hx
    exact List.mem_map.mpr ⟨f, hf, hp⟩
  have hucount := nodup_sub_count _ ((mediaFiles walk).map SrcFile.path)
    hB.nodup_used hused_sub
  have hmapcount := length_filter_comp_map SrcFile.path
    (fun x => decide (x ∈ (findPairs cfg.max_video_duration probe walk).used)) (mediaFiles walk)
  have hsplit := filter_length_split
    (fun f => decide (SrcFile.path f ∈ (findPairs cfg.max_video_duration probe walk).used))
    (mediaFiles walk)
  have hnotnot : ((mediaFiles walk).filter fun f =>
      !(decide (SrcFile.path f ∈ (findPairs cfg.max_video_duration probe walk).used))) =
      ((mediaFiles walk).filter fun f =>
        decide (SrcFile.path f ∉ (findPairs cfg.max_video_duration probe walk).used)) := by
    apply List.filter_congr
    intro f _
    simp
  have hmedia_le : (mediaFiles walk).length ≤ walk.length := List.length_filter_le _ _
  rw [hfilter] at hcount
  rw [hmapcount] at hucount
  rw [hnotnot] at hsplit
  simp only [RunOut.stats_same, RunOut.stats_cross, RunOut.stats_staged,
    RunOut.stats_skipped, RunOut.stats_scanned]
  omega

/-- Closed instance of the C8 statistics bound on a concrete completed run. -/
theorem c8_witness :
    c8r.stats_same + c8r.stats_cross + c8r.stats_staged + c8r.stats_skipped ≤
      c8r.stats_scanned :=
  c8_stats_bounded_by_scanned cfgW oW probeW shaW "P" "L" wSame [] c8r
    (by decide) rfl

theorem stagePairs_fs_mono (cfg : Config) (o : Oracle) (sha1 : String → String)
    (pd : String) :
    ∀ (l : List PairInfo) (i : Nat) (st r : PairsOut),
      stagePairs cfg o sha1 pd i l st = Except.ok r → ∀ x ∈ st.fs, x ∈ r.fs := by
  intro l
  induction l with
  | nil =>
    intro i st r h
    obtain rfl := Except.ok.inj h
    exact fun x hx => hx
  | cons p rest ih =>
    intro i st r h
    rw [stagePairs] at h
    by_cases hd : cfg.dry_run = true
    · rw [if_pos hd] at h
      exact ih _ _ _ h
    · rw [if_neg hd] at h
      rcases hs1 : safe_link_or_copy cfg.copy_files o st.fs p.still
          (pd ++ "/" ++ (padNum 5 i ++ "_" ++ p.base) ++ "__STILL" ++ suffixOf p.still)
        with e | ⟨fs1, e1⟩
      · simp only [hs1] at h
        simp at h
      · simp only [hs1] at h
        rcases hs2 : safe_link_or_copy cfg.copy_files o fs1 p.video
            (pd ++ "/" ++ (padNum 5 i ++ "_" ++ p.base) ++ "__VIDEO" ++ suffixOf p.video)
          with e | ⟨fs2, e2⟩
        · simp only [hs2] at h
          simp at h
        · simp only [hs2] at h
          intro x hx
          exact ih _ _ _ h x ((slc_ok_char _ _ _ _ _ hs2).1 x ((slc_ok_char _ _ _ _ _ hs1).1 x hx))

theorem stagePairs_pair (cfg : Config) (o : Oracle) (sha1 : String → String)
    (pd : String) :
    ∀ (l : List PairInfo) (i : Nat) (st1 st2 r1 : PairsOut),
      stagePairs cfg o sha1 pd i l st1 = Except.ok r1 →
      st2.pair_hashes = st1.pair_hashes →
      (∀ x ∈ r1.fs, x ∈ st2.fs) →
      ∃ r2, stagePairs cfg o sha1 pd i l st2 = Except.ok r2 ∧ r2.fs = st2.fs ∧
        r2.pair_hashes = r1.pair_hashes := by
  intro l
  induction l with
  | nil =>
    intro i st1 st2 r1 h hph hsub
    obtain rfl := Except.ok.inj h
    exact ⟨st2, rfl, rfl, hph⟩
  | cons p rest ih =>
    intro i st1 st2 r1 h hph hsub
    rw [stagePairs] at h ⊢
    by_cases hd : cfg.dry_run = true
    · rw [if_pos hd] at h ⊢
      exact ih _ _ _ _ h hph hsub
    · rw [if_neg hd] at h ⊢
      rcases hs1 : safe_link_or_copy cfg.copy_files o st1.fs p.still
          (pd ++ "/" ++ (padNum 5 i ++ "_" ++ p.base) ++ "__STILL" ++ suffixOf p.still)
        with e | ⟨fs1, e1⟩
      · simp only [hs1] at h
        simp at h
      · simp only [hs1] at h
        rcases hs2 : safe_link_or_copy cfg.copy_files o fs1 p.video
            (pd ++ "/" ++ (padNum 5 i ++ "_" ++ p.base) ++ "__VIDEO" ++ suffixOf p.video)
          with e | ⟨fs2, e2⟩
        · simp only [hs2] at h
          simp at h
        · simp only [hs2] at h
          have hmono := stagePairs_fs_mono cfg o sha1 pd rest (i + 1) _ r1 h
          have hout1 : (pd ++ "/" ++ (padNum 5 i ++ "_" ++ p.base) ++ "__STILL" ++
              suffixOf p.still) ∈ st2.fs :=
            hsub _ (hmono _ ((slc_ok_char _ _ _ _ _ hs2).1 _ (slc_ok_char _ _ _ _ _ hs1).2.1))
          have hout2 : (pd ++ "/" ++ (padNum 5 i ++ "_" ++ p.base) ++ "__VIDEO" ++
              suffixOf p.video) ∈ st2.fs :=
            hsub _ (hmono _ (slc_ok_char _ _ _ _ _ hs2).2.1)
          simp only [slc_noop cfg.copy_files o st2.fs p.still _ hout1,
            slc_noop cfg.copy_files o st2.fs p.video _ hout2]
          obtain ⟨r2, h2, hfs2, hph2⟩ := ih (i + 1) _
            { fs := st2.fs,
              effs := st2.effs ++ [FsOp.mkdirParent _] ++ [FsOp.mkdirParent _] ++
                [FsOp.appendRow (pairsManifest pd)],
              pair_hashes := st2.pair_hashes ++
                (if cfg.dedupe_leftovers then [sha1 p.still, sha1 p.video] else []) }
            r1 h (by rw [hph]) hsub
          exact ⟨r2, h2, hfs2, hph2⟩

theorem leftStage_out (cfg : Config) (o : Oracle) (ld : String) (f : SrcFile)
    (id : Nat) (out : String) (st' r : LeftOut)
    (h : leftStage cfg o ld f id out st' = Except.ok r) :
    r.seen = st'.seen ∧ r.next_id = id ∧
    r.leftovers_staged = st'.leftovers_staged + 1 ∧
    r.leftovers_skipped = st'.leftovers_skipped ∧ (∀ x ∈ st'.fs, x ∈ r.fs) := by
  unfold leftStage at h
  split_ifs at h with hd
  · obtain rfl := Except.ok.inj h
    exact ⟨rfl, rfl, rfl, rfl, fun x hx => hx⟩
  · rcases hslc : safe_link_or_copy cfg.copy_files o st'.fs (SrcFile.path f) out
      with e | ⟨fs', effs'⟩
    · rw [hslc] at h; simp at h
    · rw [hslc] at h
      obtain rfl := Except.ok.inj h
      exact ⟨rfl, rfl, rfl, rfl, (slc_ok_char _ _ _ _ _ hslc).1⟩

theorem leftStage_pair (cfg : Config) (o : Oracle) (ld : String) (f : SrcFile)
    (id : Nat) (out : String) (st1' st2' r1 : LeftOut)
    (h1 : leftStage cfg o ld f id out st1' = Except.ok r1)
    (hsub : ∀ x ∈ r1.fs, x ∈ st2'.fs) :
    ∃ r2, leftStage cfg o ld f id out st2' = Except.ok r2 ∧ r2.fs = st2'.fs := by
  unfold leftStage at h1 ⊢
  split_ifs at h1 ⊢ with hd
  · exact ⟨_, rfl, rfl⟩
  · rcases hslc1 : safe_link_or_copy cfg.copy_files o st1'.fs (SrcFile.path f) out
      with e | ⟨fs1, e1⟩
    · rw [hslc1] at h1; simp at h1
    · rw [hslc1] at h1
      obtain rfl := Except.ok.inj h1
      have hout : out ∈ st2'.fs := hsub _ (slc_ok_char _ _ _ _ _ hslc1).2.1
      simp only [slc_noop cfg.copy_files o st2'.fs (SrcFile.path f) out hout]
      exact ⟨_, rfl, rfl⟩

theorem leftStep_fs_mono (cfg : Config) (o : Oracle) (sha1 : String → String)
    (ld : String) (used ph : List String) (st : LeftOut) (f : SrcFile) (r : LeftOut)
    (h : leftStep cfg o sha1 ld used ph st f = Except.ok r) :
    ∀ x ∈ st.fs, x ∈ r.fs := by
  unfold leftStep at h
  by_cases h1 : lowerStr f.ext ∈ ALL_EXTENSIONS
  · rw [if_pos h1] at h
    by_cases h2 : SrcFile.path f ∈ used
    · rw [if_pos h2] at h
      obtain rfl := Except.ok.inj h
      exact fun x hx => hx
    · rw [if_neg h2] at h
      by_cases h3 : (cfg.dedupe_leftovers && !cfg.dry_run) = true
      · rw [if_pos h3] at h
        by_cases h4 : sha1 (SrcFile.path f) ∈ ph ∨ sha1 (SrcFile.path f) ∈ st.seen
        · rw [if_pos h4] at h
          obtain rfl := Except.ok.inj h
          exact fun x hx => hx
        · rw [if_neg h4] at h
          exact (leftStage_out cfg o ld f _ _ _ r h).2.2.2.2
      · rw [if_neg h3] at h
        exact (leftStage_out cfg o ld f _ _ _ r h).2.2.2.2
  · rw [if_neg h1] at h
    obtain rfl := Except.ok.inj h
    exact fun x hx => hx

theorem stageLeftovers_fs_mono (cfg : Config) (o : Oracle) (sha1 : String → String)
    (ld : String) (used ph : List String) :
    ∀ (l : List SrcFile) (st r : LeftOut),
      stageLeftovers cfg o sha1 ld used ph l st = Except.ok r → ∀ x ∈ st.fs, x ∈ r.fs := by
  intro l
  induction l with
  | nil =>
    intro st r h
    obtain rfl := Except.ok.inj h
    exact fun x hx => hx
  | cons f rest ih =>
    intro st r h
    rcases hstep : leftStep cfg o sha1 ld used ph st f with e | st1
    · rw [stageLeftovers, hstep] at h; simp at h
    · rw [stageLeftovers, hstep] at h
      intro x hx
      exact ih _ _ h x (leftStep_fs_mono cfg o sha1 ld used ph st f st1 hstep x hx)

theorem leftStep_pair (cfg : Config) (o : Oracle) (sha1 : String → String)
    (ld : String) (used ph : List String) (st1 st2 : LeftOut) (f : SrcFile)
    (r1 : LeftOut) (h1 : leftStep cfg o sha1 ld used ph st1 f = Except.ok r1)
    (hseen : st2.seen = st1.seen) (hid : st2.next_id = st1.next_id)
    (hsub : ∀ x ∈ r1.fs, x ∈ st2.fs) :
    ∃ r2, leftStep cfg o sha1 ld used ph st2 f = Except.ok r2 ∧ r2.fs = st2.fs ∧
      r2.seen = r1.seen ∧ r2.next_id = r1.next_id ∧
      r2.leftovers_staged + st1.leftovers_staged =
        r1.leftovers_staged + st2.leftovers_staged := by
  unfold leftStep at h1 ⊢
  by_cases hm : lowerStr f.ext ∈ ALL_EXTENSIONS
  · rw [if_pos hm] at h1 ⊢
    by_cases hu : SrcFile.path f ∈ used
    · rw [if_pos hu] at h1 ⊢
      obtain rfl := Except.ok.inj h1
      exact ⟨st2, rfl, rfl, hseen, hid, by omega⟩
    · rw [if_neg hu] at h1 ⊢
      by_cases hdd : (cfg.dedupe_leftovers && !cfg.dry_run) = true
      · rw [if_pos hdd] at h1 ⊢
        by_cases hh : sha1 (SrcFile.path f) ∈ ph ∨ sha1 (SrcFile.path f) ∈ st1.seen
        · rw [if_pos hh] at h1
          obtain rfl := Except.ok.inj h1
          rw [if_pos (show sha1 (SrcFile.path f) ∈ ph ∨ sha1 (SrcFile.path f) ∈ st2.seen by
            rw [hseen]; exact hh)]
          refine ⟨_, rfl, rfl, ?_, ?_, ?_⟩
          · simpa using hseen
          · simpa using hid
          · simp only [LeftOut.leftovers_staged]
            omega
        · rw [if_neg hh] at h1
          rw [if_neg (show ¬(sha1 (SrcFile.path f) ∈ ph ∨ sha1 (SrcFile.path f) ∈ st2.seen) by
            rw [hseen]; exact hh)]
          rw [hid]
          have hsub' : ∀ x ∈ r1.fs, x ∈ ({ st2 with seen := st2.seen ++ [sha1 (SrcFile.path f)] } : LeftOut).fs := hsub
          obtain ⟨r2, h2, hfs2⟩ := leftStage_pair cfg o ld f (st1.next_id + 1)
            (ld ++ "/L" ++ padNum 6 (st1.next_id + 1) ++ "__" ++ f.filename)
            { st1 with seen := st1.seen ++ [sha1 (SrcFile.path f)] }
            { st2 with seen := st2.seen ++ [sha1 (SrcFile.path f)] } r1 h1 hsub'
          obtain ⟨hs1seen, hs1id, hs1stg, _, _⟩ := leftStage_out cfg o ld f _ _ _ r1 h1
          obtain ⟨hs2seen, hs2id, hs2stg, _, _⟩ := leftStage_out cfg o ld f _ _ _ r2 h2
          refine ⟨r2, h2, by simpa using hfs2, ?_, ?_, ?_⟩
          · rw [hs1seen, hs2seen]
            simp [hseen]
          · rw [hs1id, hs2id]
          · rw [hs1stg, hs2stg]
            simp only [LeftOut.leftovers_staged]
            omega
      · rw [if_neg hdd] at h1 ⊢
        rw [hid]
        obtain ⟨r2, h2, hfs2⟩ := leftStage_pair cfg o ld f (st1.next_id + 1)
          (ld ++ "/L" ++ padNum 6 (st1.next_id + 1) ++ "__" ++ f.filename)
          st1 st2 r1 h1 hsub
        obtain ⟨hs1seen, hs1id, hs1stg, _, _⟩ := leftStage_out cfg o ld f _ _ _ r1 h1
        obtain ⟨hs2seen, hs2id, hs2stg, _, _⟩ := leftStage_out cfg o ld f _ _ _ r2 h2
        refine ⟨r2, h2, hfs2, ?_, ?_, ?_⟩
        · rw [hs1seen, hs2seen, hseen]
        · rw [hs1id, hs2id]
        · rw [hs1stg, hs2stg]
          omega
  · rw [if_neg hm] at h1 ⊢
    obtain rfl := Except.ok.inj h1
    exact ⟨st2, rfl, rfl, hseen, hid, by omega⟩

theorem stageLeftovers_pair (cfg : Config) (o : Oracle) (sha1 : String → String)
    (ld : String) (used ph : List String) :
    ∀ (l : List SrcFile) (st1 st2 r1 : LeftOut),
      stageLeftovers cfg o sha1 ld used ph l st1 = Except.ok r1 →
      st2.seen = st1.seen → st2.next_id = st1.next_id →
      (∀ x ∈ r1.fs, x ∈ st2.fs) →
      ∃ r2, stageLeftovers cfg o sha1 ld used ph l st2 = Except.ok r2 ∧
        r2.fs = st2.fs ∧
        r2.leftovers_staged + st1.leftovers_staged =
          r1.leftovers_staged + st2.leftovers_staged := by
  intro l
  induction l with
  | nil =>
    intro st1 st2 r1 h hseen hid hsub
    obtain rfl := Except.ok.inj h
    exact ⟨st2, rfl, rfl, by omega⟩
  | cons f rest ih =>
    intro st1 st2 r1 h hseen hid hsub
    rcases hstep : leftStep cfg o sha1 ld used ph st1 f with e | s1
    · rw [stageLeftovers, hstep] at h; simp at h
    · rw [stageLeftovers, hstep] at h
      have hsub1 : ∀ x ∈ s1.fs, x ∈ st2.fs := fun x hx =>
        hsub x (stageLeftovers_fs_mono cfg o sha1 ld used ph rest s1 r1 h x hx)
      obtain ⟨s2, h2, hfs2, hseen2, hid2, hstg2⟩ :=
        leftStep_pair cfg o sha1 ld used ph st1 st2 f s1 hstep hseen hid hsub1
      obtain ⟨r2, hr2, hfsr2, hstgr2⟩ := ih s1 s2 r1 h (by rw [hseen2]) (by rw [hid2])
        (by rw [hfs2]; exact hsub)
      refine ⟨r2, ?_, by rw [hfsr2, hfs2], by omega⟩
      rw [stageLeftovers, h2]
      exact hr2

/-- C5: running the stager a second time against the same source and
destinations with identical configuration returns the same filesystem — every
link-or-copy is a no-op because the destination already exists, so no
duplicate output file appears — and the leftoversStaged counter of the second
run equals that of the first, not double. -/
theorem c5_second_run_idempotent (cfg : Config) (o : Oracle)
    (probe : String → Option ℚ) (sha1 : String → String) (pd ld : String)
    (walk : List SrcFile) (fs0 : List String) (r1 : RunOut)
    (h1 : processRun cfg o probe sha1 pd ld walk fs0 = Except.ok r1) :
    ∃ r2, processRun cfg o probe sha1 pd ld walk r1.fs = Except.ok r2 ∧
      r2.fs = r1.fs ∧ r2.stats_staged = r1.stats_staged := by
  obtain ⟨po, lo, hpp, hpl, hr⟩ := processRun_inv cfg o probe sha1 pd ld walk fs0 r1 h1
  have hr1fs : r1.fs = lo.fs := by rw [hr]
  have hr1stg : r1.stats_staged = lo.leftovers_staged := by rw [hr]
  unfold process_leftovers at hpl
  have hmonoL : ∀ x ∈ po.fs, x ∈ lo.fs := fun x hx =>
    stageLeftovers_fs_mono cfg o sha1 ld _ po.pair_hashes walk _ lo hpl x hx
  unfold process_pairs at hpp
  obtain ⟨po2, hpp2, hpo2fs, hpo2ph⟩ := stagePairs_pair cfg o sha1 pd
    (findPairs cfg.max_video_duration probe walk).pairs 1 _
    { fs := r1.fs,
      effs := if cfg.dry_run then []
        else [FsOp.mkdir pd, FsOp.openWrite (pairsManifest pd)],
      pair_hashes := [] }
    po hpp rfl (fun x hx => by rw [hr1fs]; exact hmonoL x hx)
  obtain ⟨lo2, hpl2, hlo2fs, hlo2stg⟩ := stageLeftovers_pair cfg o sha1 ld
    (findPairs cfg.max_video_duration probe walk).used po.pair_hashes walk _
    { fs := r1.fs,
      effs := if cfg.dry_run then []
        else [FsOp.mkdir ld, FsOp.openWrite (leftsManifest ld)],
      leftovers_staged := 0, leftovers_skipped := 0, next_id := 0, seen := [] }
    lo hpl rfl rfl (fun x hx => by rw [hr1fs]; exact hx)
  have hpp2' : process_pairs cfg o sha1 pd
      (findPairs cfg.max_video_duration probe walk).pairs r1.fs = Except.ok po2 := by
    unfold process_pairs
    exact hpp2
  have hpl2' : process_leftovers cfg o sha1 ld walk
      (findPairs cfg.max_video_duration probe walk).used po2.pair_hashes po2.fs =
      Except.ok lo2 := by
    unfold process_leftovers
    rw [hpo2ph, hpo2fs]
    exact hpl2
  refine ⟨⟨lo2.fs, po2.effs ++ lo2.effs, walk.length,
    (findPairs cfg.max_video_duration probe walk).sameDirPairs,
    (findPairs cfg.max_video_duration probe walk).crossDirPairs,
    lo2.leftovers_staged, lo2.leftovers_skipped,
    (findPairs cfg.max_video_duration probe walk).pairs,
    (findPairs cfg.max_video_duration probe walk).used⟩, ?_, ?_, ?_⟩
  · simp only [processRun, hpp2', hpl2']
  · exact hlo2fs
  · simp only [LeftOut.leftovers_staged] at hlo2stg
    simp only [RunOut.stats_staged]
    omega

/-- Closed instance of the C5 idempotence theorem: the concrete first run of
the stager over the two-file cross-directory tree into empty destinations,
replayed against its own output filesystem. -/
theorem c5_witness :
    ∃ r2, processRun cfgW oW probeW shaW "P" "L" wCross c5r1.fs = Except.ok r2 ∧
      r2.fs = c5r1.fs ∧ r2.stats_staged = c5r1.stats_staged :=
  c5_second_run_idempotent cfgW oW probeW shaW "P" "L" wCross [] c5r1 rfl

/-- Closed instance of the C3 staging-uniqueness theorem on the
two-directory example. -/
theorem c3_witness :
    (findPairs 6 probeW wCross).pairs.Pairwise disjPair ∧
    (∀ p ∈ (findPairs 6 probeW wCross).pairs,
      p.still ∈ (findPairs 6 probeW wCross).used ∧
      p.video ∈ (findPairs 6 probeW wCross).used ∧ p.still ≠ p.video) ∧
    ∀ (cfg : Config) (o : Oracle) (sha1 : String → String) (ld : String)
      (ph fs0 : List String) (lo : LeftOut),
      process_leftovers cfg o sha1 ld wCross (findPairs 6 probeW wCross).used ph fs0 =
        Except.ok lo →
      ∀ s d, FsOp.linkFile s d ∈ lo.effs ∨ FsOp.copyFile s d ∈ lo.effs →
        s ∉ (findPairs 6 probeW wCross).used :=
  c3_each_file_staged_at_most_once 6 probeW wCross (by decide)

end GTLP
